import Mathlib

/-!
# Card text extractor of `ocr-demo` (`main.go`)

A shallow embedding of the text-parsing routine `parseOCRDescription` and of the
helpers it calls (`extractIDCardNumber`, `extractName`, `extractDate`,
`extractAddress`), followed by theorems about them.

Modelling conventions.

* A Go `string` is modelled as the list of its Unicode code points
  (`GoString = List Char`).  The handler obtains the text from `json.Unmarshal`,
  which only produces valid UTF-8, and on valid UTF-8 the byte-level operations
  used here (`strings.Split`, `strings.Contains`, `strings.TrimSpace`,
  `strings.ReplaceAll`, `strings.Join`, `regexp.FindString`) agree with their
  code-point-level counterparts.
* A run-time panic (the out-of-range slice expression in `extractAddress`) is
  modelled by the result `none`.
* The two regular expressions are sequences of greedy bounded repetitions of
  character classes; `FindString` is modelled by the leftmost match that a
  backtracking search finds first, which is the documented semantics of
  package `regexp`.
-/

namespace OcrDemo

/-- A Go string, as the list of its code points. -/
abbrev GoString := List Char

/-! ## Library functions used by the source -/

/-- The predicate `unicode.IsSpace`: the Unicode White_Space code points. -/
def isSpace (c : Char) : Bool :=
  let n := c.toNat
  (9 ≤ n && n ≤ 13) || n == 32 || n == 0x85 || n == 0xA0 || n == 0x1680 ||
  (0x2000 ≤ n && n ≤ 0x200A) || n == 0x2028 || n == 0x2029 || n == 0x202F ||
  n == 0x205F || n == 0x3000

/-- The function `strings.TrimSpace`: drop leading and trailing white space. -/
def trimSpace (s : GoString) : GoString :=
  ((s.dropWhile isSpace).reverse.dropWhile isSpace).reverse

/-- Whether `sub` is a prefix of `s`. -/
def hasPrefix : GoString → GoString → Bool
  | _, [] => true
  | [], _ :: _ => false
  | c :: s, d :: sub => c == d && hasPrefix s sub

/-- The function `strings.Contains`: `sub` occurs in `s` as a substring. -/
def contains : GoString → GoString → Bool
  | [], sub => hasPrefix [] sub
  | c :: s, sub => hasPrefix (c :: s) sub || contains s sub

/-- The function `strings.Split` for a one-character separator: the pieces
between the occurrences of `sep`; always at least one piece. -/
def splitOn (sep : Char) : GoString → List GoString
  | [] => [[]]
  | c :: s =>
    if c = sep then [] :: splitOn sep s
    else
      match splitOn sep s with
      | [] => [[c]]
      | piece :: rest => (c :: piece) :: rest

/-- The function `strings.Join`. -/
def join (sep : GoString) : List GoString → GoString
  | [] => []
  | [a] => a
  | a :: b :: rest => a ++ sep ++ join sep (b :: rest)

/-- The call `strings.ReplaceAll(s, " ", "")`: delete every space character. -/
def removeSpaces (s : GoString) : GoString :=
  s.filter (fun c => c != ' ')

/-- The slice expression `xs[lo:hi]` on a slice whose capacity equals its length
(as for the result of `strings.Split`); out-of-range bounds panic. -/
def slice {α : Type} (xs : List α) (lo hi : Nat) : Option (List α) :=
  if lo ≤ hi ∧ hi ≤ xs.length then some ((xs.drop lo).take (hi - lo)) else none

/-! ## Regular expressions -/

/-- The class `\d`. -/
def isDigit (c : Char) : Bool :=
  48 ≤ c.toNat && c.toNat ≤ 57

/-- The class `\w`, that is `[0-9A-Za-z_]`. -/
def isWord (c : Char) : Bool :=
  isDigit c || (65 ≤ c.toNat && c.toNat ≤ 90) || (97 ≤ c.toNat && c.toNat ≤ 122) ||
  c.toNat == 95

/-- The literal space of the patterns, as a one-character class. -/
def isBlank (c : Char) : Bool :=
  c == ' '

/-- One factor of a pattern: a greedy repetition `cls{min,max}` of a character
class; `max = none` stands for an unbounded repetition. -/
structure Rep where
  cls : Char → Bool
  min : Nat
  max : Option Nat

/-- Try `f hi`, `f (hi - 1)`, ..., `f lo` and return the first success. -/
def tryDown (f : Nat → Option Nat) (lo : Nat) : Nat → Option Nat
  | 0 => if lo = 0 then f 0 else none
  | hi + 1 =>
    if lo ≤ hi + 1 then
      match f (hi + 1) with
      | some r => some r
      | none => tryDown f lo hi
    else none

/-- Anchored match of a pattern at the start of `s`: the length of the match
that a backtracking search finds first (every repetition is greedy). -/
def matchSeq : List Rep → GoString → Option Nat
  | [], _ => some 0
  | r :: rs, s =>
    let run := (s.takeWhile r.cls).length
    let hi := match r.max with
      | none => run
      | some m => Nat.min m run
    tryDown (fun k => (matchSeq rs (s.drop k)).map (fun n => k + n)) r.min hi

/-- Leftmost match of a pattern in `s`, if there is one. -/
def findMatch (pat : List Rep) : GoString → Option GoString
  | [] => (matchSeq pat []).map (fun n => List.take n [])
  | c :: s =>
    match matchSeq pat (c :: s) with
    | some n => some ((c :: s).take n)
    | none => findMatch pat s

/-- The method `(*Regexp).FindString`: the leftmost match, or `""`. -/
def findString (pat : List Rep) (s : GoString) : GoString :=
  (findMatch pat s).getD []

/-- The pattern `\d{1} \d{4} \d{5} \d{2} \d{1}`. -/
def idPattern : List Rep :=
  [⟨isDigit, 1, some 1⟩, ⟨isBlank, 1, some 1⟩, ⟨isDigit, 4, some 4⟩, ⟨isBlank, 1, some 1⟩,
   ⟨isDigit, 5, some 5⟩, ⟨isBlank, 1, some 1⟩, ⟨isDigit, 2, some 2⟩, ⟨isBlank, 1, some 1⟩,
   ⟨isDigit, 1, some 1⟩]

/-- The pattern `\d{1,2} \w+ \d{4}`. -/
def datePattern : List Rep :=
  [⟨isDigit, 1, some 2⟩, ⟨isBlank, 1, some 1⟩, ⟨isWord, 1, none⟩, ⟨isBlank, 1, some 1⟩,
   ⟨isDigit, 4, some 4⟩]

/-! ## The label strings -/

/-- The Thai ID-number label. -/
def idLabelTh : GoString := "เลขประจำตัวประชาชน".toList
/-- The English ID-number label. -/
def idLabelEn : GoString := "Identification Number".toList
/-- The Thai name label. -/
def nameLabelTh : GoString := "ชื่อตัวและชื่อสกุล".toList
/-- The English name label. -/
def nameLabelEn : GoString := "Name".toList
/-- The Thai date-of-birth label. -/
def birthLabelTh : GoString := "เกิดวันที่".toList
/-- The English date-of-birth label. -/
def birthLabelEn : GoString := "Date of Birth".toList
/-- The address label (Thai only). -/
def addressLabel : GoString := "ที่อยู่".toList
/-- The Thai date-of-issue label. -/
def issueLabelTh : GoString := "วันออกบัตร".toList
/-- The English date-of-issue label. -/
def issueLabelEn : GoString := "Date of issue".toList
/-- The Thai date-of-expiry label. -/
def expiryLabelTh : GoString := "วันบัตรหมดอายุ".toList
/-- The English date-of-expiry label. -/
def expiryLabelEn : GoString := "Date of Expiry".toList

/-! ## The program -/

/-- The struct `ParsedData`. -/
structure ParsedData where
  IDCardNumber : GoString := []
  Name : GoString := []
  LastName : GoString := []
  DateOfBirth : GoString := []
  Address : GoString := []
  DateOfIssue : GoString := []
  DateOfExpiry : GoString := []
  deriving DecidableEq, Repr

/-- The function `extractIDCardNumber`. -/
def extractIDCardNumber (line : GoString) : GoString :=
  removeSpaces (findString idPattern line)

/-- The function `extractName`. -/
def extractName (line : GoString) : GoString × GoString :=
  let parts := splitOn ' ' line
  if h : 5 ≤ parts.length then (parts[3], parts[4]) else ([], [])

/-- The function `extractDate`. -/
def extractDate (line : GoString) : GoString :=
  findString datePattern line

/-- The loop of `extractAddress`: index of the first line containing the address
label (`none` for the sentinel `-1`). -/
def startIndex : List GoString → Option Nat
  | [] => none
  | line :: rest =>
    if contains line addressLabel then some 0 else (startIndex rest).map (fun i => i + 1)

/-- The function `extractAddress`; `none` when the slice expression panics. -/
def extractAddress (lines : List GoString) : Option GoString :=
  match startIndex lines with
  | some i => (slice lines i (i + 2)).map (join [' '])
  | none => some []

/-- One iteration of the loop of `parseOCRDescription`. -/
def parseLine (lines : List GoString) (parsed : ParsedData) (rawLine : GoString) :
    Option ParsedData :=
  let line := trimSpace rawLine
  if contains line idLabelTh || contains line idLabelEn then
    some { parsed with IDCardNumber := extractIDCardNumber line }
  else if contains line nameLabelTh || contains line nameLabelEn then
    some { parsed with Name := (extractName line).1, LastName := (extractName line).2 }
  else if contains line birthLabelTh || contains line birthLabelEn then
    some { parsed with DateOfBirth := extractDate line }
  else if contains line addressLabel then
    (extractAddress lines).map (fun a => { parsed with Address := a })
  else if contains line issueLabelTh || contains line issueLabelEn then
    some { parsed with DateOfIssue := extractDate line }
  else if contains line expiryLabelTh || contains line expiryLabelEn then
    some { parsed with DateOfExpiry := extractDate line }
  else some parsed

/-- The loop of `parseOCRDescription` over the remaining lines. -/
def parseLoop (lines : List GoString) : List GoString → ParsedData → Option ParsedData
  | [], parsed => some parsed
  | rawLine :: rest, parsed =>
    match parseLine lines parsed rawLine with
    | some parsed1 => parseLoop lines rest parsed1
    | none => none

/-- The function `parseOCRDescription`; `none` when it panics. -/
def parseOCRDescription (description : GoString) : Option ParsedData :=
  let lines := splitOn '\n' description
  parseLoop lines lines {}

/-! ## Vocabulary for the statements -/

/-- The line contains one of the two ID-number labels. -/
def hasIDLabel (line : GoString) : Bool :=
  contains line idLabelTh || contains line idLabelEn

/-- The line contains one of the two name labels. -/
def hasNameLabel (line : GoString) : Bool :=
  contains line nameLabelTh || contains line nameLabelEn

/-- The line contains one of the two date-of-birth labels. -/
def hasBirthLabel (line : GoString) : Bool :=
  contains line birthLabelTh || contains line birthLabelEn

/-- The line contains the address label. -/
def hasAddressLabel (line : GoString) : Bool :=
  contains line addressLabel

/-- The line contains one of the two date-of-issue labels. -/
def hasIssueLabel (line : GoString) : Bool :=
  contains line issueLabelTh || contains line issueLabelEn

/-- The line contains one of the two date-of-expiry labels. -/
def hasExpiryLabel (line : GoString) : Bool :=
  contains line expiryLabelTh || contains line expiryLabelEn

/-- The branch of the `if`/`else if` chain of `parseOCRDescription` that a
(trimmed) line takes. -/
inductive Rule where
  | id | name | birth | address | issue | expiry | skip
  deriving DecidableEq, Repr

/-- The branch taken by a trimmed line: the first label test that succeeds. -/
def ruleOf (line : GoString) : Rule :=
  if hasIDLabel line then Rule.id
  else if hasNameLabel line then Rule.name
  else if hasBirthLabel line then Rule.birth
  else if hasAddressLabel line then Rule.address
  else if hasIssueLabel line then Rule.issue
  else if hasExpiryLabel line then Rule.expiry
  else Rule.skip

/-- A string has a shape when it has as many characters as the shape has
classes and each character belongs to the class at its position. -/
def hasShape : List (Char → Bool) → GoString → Bool
  | [], [] => true
  | p :: ps, c :: cs => p c && hasShape ps cs
  | _, _ => false

/-- Following the spec's words: digit, space, 4 digits, space, 5 digits, space,
2 digits, space, digit. -/
def idShape : List (Char → Bool) :=
  [isDigit, isBlank, isDigit, isDigit, isDigit, isDigit, isBlank,
   isDigit, isDigit, isDigit, isDigit, isDigit, isBlank, isDigit, isDigit, isBlank, isDigit]

/-- The shape that a pattern made of exact repetitions describes. -/
def expand : List Rep → List (Char → Bool)
  | [] => []
  | r :: rs => List.replicate r.min r.cls ++ expand rs

/-- The 13 digits of an ID number grouped 1-4-5-2-1 with single spaces, as the
card prints them. -/
def groupID (ds : GoString) : GoString :=
  ds.take 1 ++ ' ' :: ((ds.drop 1).take 4 ++ ' ' :: ((ds.drop 5).take 5 ++
    ' ' :: ((ds.drop 10).take 2 ++ ' ' :: ds.drop 12)))

/-- A date as the card prints it: day digits, one space, a word, one space, year
digits. -/
def dateText (ds w ys : GoString) : GoString :=
  ds ++ ' ' :: (w ++ ' ' :: ys)

/-- The parts of a date are well formed: 1 or 2 digits, a non-empty word of
characters of `\w`, exactly 4 digits. -/
def wellFormedDate (ds w ys : GoString) : Bool :=
  (ds.length == 1 || ds.length == 2) && ds.all isDigit && !w.isEmpty && w.all isWord &&
    ys.length == 4 && ys.all isDigit

/-- A date string: three space-separated tokens that are 1 or 2 digits, a
non-empty word of characters of `\w`, and 4 digits. -/
def isDateString (d : GoString) : Bool :=
  match splitOn ' ' d with
  | [ds, w, ys] => wellFormedDate ds w ys
  | _ => false

/-- A Card Record that the round trip starts from: an ID number of 13 digits,
a given name and a last name that are non-empty and without white space,
three date strings, a non-empty address without a newline. -/
def roundTripInput (r : ParsedData) : Bool :=
  r.IDCardNumber.length == 13 && r.IDCardNumber.all isDigit &&
  !r.Name.isEmpty && !r.Name.any isSpace && !r.LastName.isEmpty && !r.LastName.any isSpace &&
  isDateString r.DateOfBirth && isDateString r.DateOfIssue && isDateString r.DateOfExpiry &&
  !r.Address.isEmpty && !r.Address.any (fun c => c == '\n')

/-- The synthetic ID line: Thai label, space, the grouped digits. -/
def idLine (r : ParsedData) : GoString :=
  idLabelTh ++ ' ' :: groupID r.IDCardNumber

/-- The synthetic name line: Thai label, space, name, space, last name. -/
def nameLine (r : ParsedData) : GoString :=
  nameLabelTh ++ ' ' :: (r.Name ++ ' ' :: r.LastName)

/-- The synthetic birth-date line. -/
def birthLine (r : ParsedData) : GoString :=
  birthLabelTh ++ ' ' :: r.DateOfBirth

/-- The synthetic address line. -/
def addressLine (r : ParsedData) : GoString :=
  addressLabel ++ ' ' :: r.Address

/-- The synthetic issue-date line. -/
def issueLine (r : ParsedData) : GoString :=
  issueLabelTh ++ ' ' :: r.DateOfIssue

/-- The synthetic expiry-date line. -/
def expiryLine (r : ParsedData) : GoString :=
  expiryLabelTh ++ ' ' :: r.DateOfExpiry

/-- The synthetic OCR text of a Card Record: each value after its label, on a
line of its own. -/
def syntheticText (r : ParsedData) : GoString :=
  idLine r ++ '\n' :: (nameLine r ++ '\n' :: (birthLine r ++ '\n' :: (addressLine r ++
    '\n' :: (issueLine r ++ '\n' :: expiryLine r))))

/-! ## Lemmas on the library functions -/

theorem hasPrefix_iff (s sub : GoString) : hasPrefix s sub = true ↔ sub <+: s := by
  induction sub generalizing s with
  | nil => cases s <;> simp [hasPrefix]
  | cons d sub ih =>
    cases s with
    | nil => simp [hasPrefix]
    | cons c s =>
      simp only [hasPrefix, Bool.and_eq_true, beq_iff_eq, ih, List.cons_prefix_cons]
      constructor
      · rintro ⟨h1, h2⟩; exact ⟨h1.symm, h2⟩
      · rintro ⟨h1, h2⟩; exact ⟨h1.symm, h2⟩

theorem contains_iff (s sub : GoString) : contains s sub = true ↔ sub <:+: s := by
  induction s with
  | nil =>
    simp only [contains, hasPrefix_iff, List.prefix_nil, List.infix_nil]
  | cons c s ih =>
    simp only [contains, Bool.or_eq_true, hasPrefix_iff, ih, List.infix_cons_iff]

theorem contains_false_iff (s sub : GoString) : contains s sub = false ↔ ¬ sub <:+: s := by
  rw [← contains_iff]; simp

theorem splitOn_ne_nil (sep : Char) (s : GoString) : splitOn sep s ≠ [] := by
  cases s with
  | nil => simp [splitOn]
  | cons c s =>
    simp only [splitOn]
    split
    · simp
    · split <;> simp

theorem splitOn_cons_ne (sep c : Char) (s : GoString) (h : c ≠ sep) :
    splitOn sep (c :: s) = (c :: (splitOn sep s).headD []) :: (splitOn sep s).tail := by
  simp only [splitOn, if_neg h]
  have := splitOn_ne_nil sep s
  split
  · contradiction
  · rename_i heq; simp [heq]

theorem splitOn_of_not_mem (sep : Char) (s : GoString) (h : sep ∉ s) : splitOn sep s = [s] := by
  induction s with
  | nil => rfl
  | cons c s ih =>
    simp only [List.mem_cons, not_or] at h
    rw [splitOn_cons_ne sep c s (fun e => h.1 e.symm), ih h.2]
    rfl

theorem splitOn_append_sep (sep : Char) (a b : GoString) (h : sep ∉ a) :
    splitOn sep (a ++ sep :: b) = a :: splitOn sep b := by
  induction a with
  | nil => simp [splitOn]
  | cons c a ih =>
    simp only [List.mem_cons, not_or] at h
    rw [List.cons_append, splitOn_cons_ne sep c _ (fun e => h.1 e.symm), ih h.2]
    rfl

theorem headD_splitOn_pre (sep : Char) (s : GoString) : (splitOn sep s).headD [] <+: s := by
  induction s with
  | nil => simp [splitOn]
  | cons d s ih =>
    by_cases hd : d = sep
    · simp only [splitOn, if_pos hd, List.headD_cons]
      exact List.nil_prefix
    · rw [splitOn_cons_ne sep d s hd]
      exact List.cons_prefix_cons.2 ⟨rfl, ih⟩

theorem mem_splitOn_sub (sep : Char) (s l : GoString) (h : l ∈ splitOn sep s) : l <:+: s := by
  induction s generalizing l with
  | nil =>
    simp only [splitOn, List.mem_singleton] at h
    subst h; exact List.infix_refl _
  | cons c s ih =>
    by_cases hc : c = sep
    · simp only [splitOn, if_pos hc, List.mem_cons] at h
      rcases h with h | h
      · subst h; exact List.nil_infix
      · exact (ih l h).trans (List.infix_cons (List.infix_refl _))
    · rw [splitOn_cons_ne sep c s hc] at h
      simp only [List.mem_cons] at h
      rcases h with h | h
      · subst h
        exact (List.cons_prefix_cons.2 ⟨rfl, headD_splitOn_pre sep s⟩).isInfix
      · exact (ih l (List.mem_of_mem_tail h)).trans (List.infix_cons (List.infix_refl _))

theorem infix_dropWhile (f : Char → Bool) (a : Char) (p l : GoString) (ha : f a = false)
    (h : a :: p <:+: l) : a :: p <:+: l.dropWhile f := by
  induction l with
  | nil => simp at h
  | cons x xs ih =>
    by_cases hx : f x = true
    · rw [List.dropWhile_cons_of_pos hx]
      rcases List.infix_cons_iff.1 h with h1 | h1
      · have := (List.cons_prefix_cons.1 h1).1
        subst this
        rw [ha] at hx; cases hx
      · exact ih h1
    · rw [List.dropWhile_cons_of_neg hx]; exact h

theorem dropWhile_sub (f : Char → Bool) (l : GoString) : l.dropWhile f <:+: l :=
  (List.dropWhile_suffix f).isInfix

theorem trimSpace_sub (s : GoString) : trimSpace s <:+: s := by
  unfold trimSpace
  refine List.IsInfix.trans ?_ (dropWhile_sub isSpace s)
  rw [← List.reverse_infix, List.reverse_reverse]
  exact dropWhile_sub _ _

/-- A substring that starts and ends with a non-space character survives trimming. -/
theorem infix_trimSpace (p s : GoString) (hne : p ≠ [])
    (hh : ∀ c, p.head? = some c → isSpace c = false)
    (hl : ∀ c, p.getLast? = some c → isSpace c = false)
    (h : p <:+: s) : p <:+: trimSpace s := by
  unfold trimSpace
  obtain ⟨a, q, rfl⟩ := List.exists_cons_of_ne_nil hne
  have h1 : a :: q <:+: s.dropWhile isSpace := infix_dropWhile isSpace a q s (hh a rfl) h
  rw [← List.reverse_infix] at h1
  have hr : (a :: q).reverse ≠ [] := by simp
  obtain ⟨b, r, hbr⟩ := List.exists_cons_of_ne_nil hr
  rw [hbr] at h1
  have hb : isSpace b = false := by
    apply hl
    rw [List.getLast?_eq_head?_reverse, hbr]; rfl
  have h2 := infix_dropWhile isSpace b r _ hb h1
  rw [← List.reverse_infix, List.reverse_reverse, hbr]
  exact h2

theorem trimSpace_eq_self (s : GoString)
    (hh : ∀ c, s.head? = some c → isSpace c = false)
    (hl : ∀ c, s.getLast? = some c → isSpace c = false) : trimSpace s = s := by
  cases s with
  | nil => rfl
  | cons a q =>
    have h := infix_trimSpace (a :: q) (a :: q) (by simp) hh hl (List.infix_refl _)
    have h2 := trimSpace_sub (a :: q)
    exact List.IsInfix.eq_of_length_le h2 h.length_le

theorem contains_trimSpace (p s : GoString) (hne : p ≠ [])
    (hh : ∀ c, p.head? = some c → isSpace c = false)
    (hl : ∀ c, p.getLast? = some c → isSpace c = false) :
    contains (trimSpace s) p = contains s p := by
  rw [Bool.eq_iff_iff, contains_iff, contains_iff]
  exact ⟨fun h => h.trans (trimSpace_sub s), infix_trimSpace p s hne hh hl⟩

/-! ## Lemmas on the matcher -/

theorem tryDown_of_lt (f : Nat → Option Nat) (lo hi : Nat) (h : hi < lo) :
    tryDown f lo hi = none := by
  cases hi with
  | zero => simp only [tryDown]; rw [if_neg]; omega
  | succ hi => simp only [tryDown]; rw [if_neg]; omega

theorem tryDown_hit (f : Nat → Option Nat) (lo hi r : Nat) (h : lo ≤ hi) (hf : f hi = some r) :
    tryDown f lo hi = some r := by
  cases hi with
  | zero =>
    have : lo = 0 := by omega
    simp only [tryDown, if_pos this, hf]
  | succ hi => simp only [tryDown, if_pos h, hf]

theorem tryDown_some (f : Nat → Option Nat) (lo hi r : Nat) (h : tryDown f lo hi = some r) :
    ∃ k, lo ≤ k ∧ k ≤ hi ∧ f k = some r := by
  induction hi with
  | zero =>
    simp only [tryDown] at h
    split at h
    · exact ⟨0, by omega, le_refl _, h⟩
    · cases h
  | succ hi ih =>
    simp only [tryDown] at h
    split at h
    · rename_i hle
      split at h
      · rename_i r1 hr
        cases h
        exact ⟨hi + 1, hle, le_refl _, hr⟩
      · obtain ⟨k, h1, h2, h3⟩ := ih h
        exact ⟨k, h1, by omega, h3⟩
    · cases h

theorem tryDown_none (f : Nat → Option Nat) (lo hi : Nat)
    (h : ∀ k, lo ≤ k → k ≤ hi → f k = none) : tryDown f lo hi = none := by
  cases hr : tryDown f lo hi with
  | none => rfl
  | some r =>
    obtain ⟨k, h1, h2, h3⟩ := tryDown_some f lo hi r hr
    rw [h k h1 h2] at h3; cases h3

theorem matchSeq_cons (r : Rep) (rs : List Rep) (s : GoString) :
    matchSeq (r :: rs) s =
      tryDown (fun k => (matchSeq rs (s.drop k)).map (fun n => k + n)) r.min
        (match r.max with
          | none => (s.takeWhile r.cls).length
          | some m => Nat.min m (s.takeWhile r.cls).length) := rfl

/-- A repetition that needs at least one character fails on a string that does
not start with a character of its class. -/
theorem matchSeq_head_fail (r : Rep) (rs : List Rep) (s : GoString) (hmin : 1 ≤ r.min)
    (hs : ∀ c, s.head? = some c → r.cls c = false) : matchSeq (r :: rs) s = none := by
  rw [matchSeq_cons]
  apply tryDown_of_lt
  have hrun : (s.takeWhile r.cls).length = 0 := by
    cases s with
    | nil => rfl
    | cons c s =>
      have := hs c rfl
      simp [List.takeWhile_cons, this]
  rw [hrun]
  cases r.max with
  | none => simpa using hmin
  | some m => simp only [Nat.min_def]; split <;> omega

theorem takeWhile_append_stop (f : Char → Bool) (a t : GoString) (ha : ∀ c ∈ a, f c = true)
    (ht : ∀ c, t.head? = some c → f c = false) : (a ++ t).takeWhile f = a := by
  induction a with
  | nil =>
    cases t with
    | nil => rfl
    | cons c t => simp [List.takeWhile_cons, ht c rfl]
  | cons x a ih =>
    rw [List.cons_append, List.takeWhile_cons_of_pos (ha x (List.mem_cons_self _ _)),
      ih (fun c hc => ha c (List.mem_cons_of_mem _ hc))]

/-- A greedy repetition that takes the whole run `a` of its class. -/
theorem matchSeq_hit (r : Rep) (rs : List Rep) (a t : GoString) (n : Nat)
    (ha : ∀ c ∈ a, r.cls c = true) (ht : ∀ c, t.head? = some c → r.cls c = false)
    (hmin : r.min ≤ a.length) (hmax : ∀ m, r.max = some m → a.length ≤ m)
    (hn : matchSeq rs t = some n) : matchSeq (r :: rs) (a ++ t) = some (a.length + n) := by
  rw [matchSeq_cons, takeWhile_append_stop r.cls a t ha ht]
  have hhi : (match r.max with
      | none => a.length
      | some m => Nat.min m a.length) = a.length := by
    cases hm : r.max with
    | none => rfl
    | some m => exact Nat.min_eq_right (hmax m hm)
  rw [hhi]
  apply tryDown_hit _ _ _ _ hmin
  simp [hn]

theorem le_length_takeWhile_iff (f : Char → Bool) (s : GoString) (m : Nat) :
    m ≤ (s.takeWhile f).length ↔ m ≤ s.length ∧ ∀ c ∈ s.take m, f c = true := by
  induction s generalizing m with
  | nil => simp
  | cons x s ih =>
    cases m with
    | zero => simp
    | succ m =>
      by_cases hx : f x = true
      · rw [List.takeWhile_cons_of_pos hx]
        simp only [List.length_cons, Nat.add_le_add_iff_right, ih, List.take_succ_cons,
          List.mem_cons, forall_eq_or_imp, hx, true_and]
      · rw [List.takeWhile_cons_of_neg hx]
        simp [hx]

/-- An exact repetition `cls{m}` matches exactly `m` characters of its class. -/
theorem matchSeq_exact_iff (cls : Char → Bool) (m : Nat) (rs : List Rep) (s : GoString) (n : Nat) :
    matchSeq (⟨cls, m, some m⟩ :: rs) s = some n ↔
      ∃ a t, s = a ++ t ∧ a.length = m ∧ (∀ c ∈ a, cls c = true) ∧
        ∃ k, matchSeq rs t = some k ∧ n = m + k := by
  rw [matchSeq_cons]
  simp only
  by_cases hrun : m ≤ (s.takeWhile cls).length
  · have hmin : Nat.min m (s.takeWhile cls).length = m := Nat.min_eq_left hrun
    rw [hmin]
    have hdo : tryDown (fun k => (matchSeq rs (s.drop k)).map (fun n => k + n)) m m =
        (matchSeq rs (s.drop m)).map (fun n => m + n) := by
      cases h : (matchSeq rs (s.drop m)).map (fun n => m + n) with
      | none => exact tryDown_none _ _ _ (fun k h1 h2 => by
          have : k = m := by omega
          subst this; exact h)
      | some v => exact tryDown_hit _ _ _ _ (le_refl _) h
    rw [hdo]
    rw [le_length_takeWhile_iff] at hrun
    constructor
    · intro h
      simp only [Option.map_eq_some'] at h
      obtain ⟨k, hk, rfl⟩ := h
      exact ⟨s.take m, s.drop m, (List.take_append_drop m s).symm,
        by simp [List.length_take, hrun.1], hrun.2, k, hk, rfl⟩
    · rintro ⟨a, t, rfl, hlen, _, k, hk, rfl⟩
      subst hlen
      simp [hk]
  · have hlt : Nat.min m (s.takeWhile cls).length < m := by
      simp only [Nat.min_def]; split <;> omega
    rw [tryDown_of_lt _ _ _ hlt]
    constructor
    · intro h; cases h
    · rintro ⟨a, t, rfl, hlen, hcls, _⟩
      exfalso; apply hrun
      rw [le_length_takeWhile_iff]
      subst hlen
      simp only [List.length_append, Nat.le_add_right, List.take_left', true_and]
      exact hcls

theorem findMatch_skip_prefix (r : Rep) (rs : List Rep) (pre s : GoString) (hmin : 1 ≤ r.min)
    (hpre : ∀ c ∈ pre, r.cls c = false) :
    findMatch (r :: rs) (pre ++ s) = findMatch (r :: rs) s := by
  induction pre with
  | nil => rfl
  | cons x pre ih =>
    rw [List.cons_append, findMatch,
      matchSeq_head_fail r rs _ hmin (fun c hc => by
        simp only [List.head?_cons, Option.some.injEq] at hc
        subst hc; exact hpre _ (List.mem_cons_self _ _))]
    exact ih (fun c hc => hpre c (List.mem_cons_of_mem _ hc))

theorem findMatch_hit (pat : List Rep) (s : GoString) (n : Nat) (hs : s ≠ [])
    (h : matchSeq pat s = some n) : findMatch pat s = some (s.take n) := by
  cases s with
  | nil => exact absurd rfl hs
  | cons c s => simp only [findMatch, h]

/-! ## Lemmas on the loop of `parseOCRDescription` -/

theorem parseLine_eq (lines : List GoString) (p : ParsedData) (raw : GoString) :
    parseLine lines p raw =
      match ruleOf (trimSpace raw) with
      | Rule.id => some { p with IDCardNumber := extractIDCardNumber (trimSpace raw) }
      | Rule.name =>
        some { p with Name := (extractName (trimSpace raw)).1, LastName := (extractName (trimSpace raw)).2 }
      | Rule.birth => some { p with DateOfBirth := extractDate (trimSpace raw) }
      | Rule.address => (extractAddress lines).map (fun a => { p with Address := a })
      | Rule.issue => some { p with DateOfIssue := extractDate (trimSpace raw) }
      | Rule.expiry => some { p with DateOfExpiry := extractDate (trimSpace raw) }
      | Rule.skip => some p := by
  unfold parseLine ruleOf hasIDLabel hasNameLabel hasBirthLabel hasAddressLabel hasIssueLabel
    hasExpiryLabel
  simp only
  split_ifs <;> rfl

theorem parseLoop_append (lines a b : List GoString) (p : ParsedData) :
    parseLoop lines (a ++ b) p = (parseLoop lines a p).bind (parseLoop lines b) := by
  induction a generalizing p with
  | nil => rfl
  | cons x a ih =>
    simp only [List.cons_append, parseLoop]
    cases parseLine lines p x with
    | none => rfl
    | some p1 => exact ih p1

/-- The loop returns a record whenever `extractAddress` does not panic. -/
theorem parseLoop_isSome (lines rest : List GoString) (p : ParsedData) (a : GoString)
    (h : extractAddress lines = some a) : ∃ r, parseLoop lines rest p = some r := by
  induction rest generalizing p with
  | nil => exact ⟨p, rfl⟩
  | cons x rest ih =>
    simp only [parseLoop, parseLine_eq, h]
    cases ruleOf (trimSpace x) <;> exact ih _

/-- The loop returns a record whenever the address branch is never taken. -/
theorem parseLoop_isSome_of_no_address (lines rest : List GoString) (p : ParsedData)
    (h : ∀ l ∈ rest, ruleOf (trimSpace l) ≠ Rule.address) :
    ∃ r, parseLoop lines rest p = some r := by
  induction rest generalizing p with
  | nil => exact ⟨p, rfl⟩
  | cons x rest ih =>
    have hx := h x (List.mem_cons_self _ _)
    have hr := fun q => ih q (fun l hl => h l (List.mem_cons_of_mem _ hl))
    simp only [parseLoop, parseLine_eq]
    cases hrule : ruleOf (trimSpace x) <;> first | exact hr _ | exact absurd hrule hx

/-- Frame property of the loop: a field keeps its value over lines that do not
take the branch that assigns it. -/
theorem parseLoop_frame (lines rest : List GoString) (p r : ParsedData)
    (h : parseLoop lines rest p = some r) :
    ((∀ l ∈ rest, ruleOf (trimSpace l) ≠ Rule.id) → r.IDCardNumber = p.IDCardNumber) ∧
    ((∀ l ∈ rest, ruleOf (trimSpace l) ≠ Rule.name) →
      r.Name = p.Name ∧ r.LastName = p.LastName) ∧
    ((∀ l ∈ rest, ruleOf (trimSpace l) ≠ Rule.birth) → r.DateOfBirth = p.DateOfBirth) ∧
    ((∀ l ∈ rest, ruleOf (trimSpace l) ≠ Rule.address) → r.Address = p.Address) ∧
    ((∀ l ∈ rest, ruleOf (trimSpace l) ≠ Rule.issue) → r.DateOfIssue = p.DateOfIssue) ∧
    ((∀ l ∈ rest, ruleOf (trimSpace l) ≠ Rule.expiry) → r.DateOfExpiry = p.DateOfExpiry) := by
  induction rest generalizing p with
  | nil =>
    simp only [parseLoop, Option.some.injEq] at h
    subst h; simp
  | cons x rest ih =>
    simp only [parseLoop, parseLine_eq] at h
    simp only [List.mem_cons, forall_eq_or_imp]
    cases hrule : ruleOf (trimSpace x) <;> rw [hrule] at h <;> simp only at h
    case address =>
      cases ha : extractAddress lines with
      | none => rw [ha] at h; cases h
      | some a =>
        rw [ha] at h
        obtain ⟨h1, h2, h3, h4, h5, h6⟩ := ih _ h
        refine ⟨fun hh => h1 hh.2, fun hh => h2 hh.2, fun hh => h3 hh.2, fun hh => ?_,
          fun hh => h5 hh.2, fun hh => h6 hh.2⟩
        exact absurd rfl hh.1
    all_goals
      obtain ⟨h1, h2, h3, h4, h5, h6⟩ := ih _ h
      refine ⟨fun hh => ?_, fun hh => ?_, fun hh => ?_, fun hh => ?_, fun hh => ?_, fun hh => ?_⟩
      all_goals first
        | exact absurd rfl hh.1
        | exact h1 hh.2
        | exact h2 hh.2
        | exact h3 hh.2
        | exact h4 hh.2
        | exact h5 hh.2
        | exact h6 hh.2

theorem contains_mono (a b p : GoString) (hab : a <:+: b) (h : contains a p = true) :
    contains b p = true := by
  rw [contains_iff] at *
  exact h.trans hab

theorem contains_false_of_sub (a b p : GoString) (hab : a <:+: b) (h : contains b p = false) :
    contains a p = false := by
  cases hc : contains a p with
  | false => rfl
  | true => rw [contains_mono a b p hab hc] at h; cases h

theorem hasIDLabel_trimSpace (l : GoString) : hasIDLabel (trimSpace l) = hasIDLabel l := by
  unfold hasIDLabel
  rw [contains_trimSpace idLabelTh l (by decide) (by decide) (by decide),
    contains_trimSpace idLabelEn l (by decide) (by decide) (by decide)]

theorem hasNameLabel_trimSpace (l : GoString) : hasNameLabel (trimSpace l) = hasNameLabel l := by
  unfold hasNameLabel
  rw [contains_trimSpace nameLabelTh l (by decide) (by decide) (by decide),
    contains_trimSpace nameLabelEn l (by decide) (by decide) (by decide)]

theorem hasBirthLabel_trimSpace (l : GoString) : hasBirthLabel (trimSpace l) = hasBirthLabel l := by
  unfold hasBirthLabel
  rw [contains_trimSpace birthLabelTh l (by decide) (by decide) (by decide),
    contains_trimSpace birthLabelEn l (by decide) (by decide) (by decide)]

theorem hasAddressLabel_trimSpace (l : GoString) :
    hasAddressLabel (trimSpace l) = hasAddressLabel l := by
  unfold hasAddressLabel
  rw [contains_trimSpace addressLabel l (by decide) (by decide) (by decide)]

theorem hasIssueLabel_trimSpace (l : GoString) : hasIssueLabel (trimSpace l) = hasIssueLabel l := by
  unfold hasIssueLabel
  rw [contains_trimSpace issueLabelTh l (by decide) (by decide) (by decide),
    contains_trimSpace issueLabelEn l (by decide) (by decide) (by decide)]

theorem hasExpiryLabel_trimSpace (l : GoString) :
    hasExpiryLabel (trimSpace l) = hasExpiryLabel l := by
  unfold hasExpiryLabel
  rw [contains_trimSpace expiryLabelTh l (by decide) (by decide) (by decide),
    contains_trimSpace expiryLabelEn l (by decide) (by decide) (by decide)]

/-- Trimming does not change the branch a line takes: no label starts or ends
with white space. -/
theorem ruleOf_trimSpace (l : GoString) : ruleOf (trimSpace l) = ruleOf l := by
  unfold ruleOf
  rw [hasIDLabel_trimSpace, hasNameLabel_trimSpace, hasBirthLabel_trimSpace,
    hasAddressLabel_trimSpace, hasIssueLabel_trimSpace, hasExpiryLabel_trimSpace]

theorem ruleOf_eq_id_iff (l : GoString) : ruleOf l = Rule.id ↔ hasIDLabel l = true := by
  unfold ruleOf; split_ifs <;> simp_all

theorem ruleOf_eq_name_iff (l : GoString) :
    ruleOf l = Rule.name ↔ hasIDLabel l = false ∧ hasNameLabel l = true := by
  unfold ruleOf; split_ifs <;> simp_all

theorem ruleOf_eq_birth_iff (l : GoString) :
    ruleOf l = Rule.birth ↔
      hasIDLabel l = false ∧ hasNameLabel l = false ∧ hasBirthLabel l = true := by
  unfold ruleOf; split_ifs <;> simp_all

theorem ruleOf_eq_address_iff (l : GoString) :
    ruleOf l = Rule.address ↔
      hasIDLabel l = false ∧ hasNameLabel l = false ∧ hasBirthLabel l = false ∧
        hasAddressLabel l = true := by
  unfold ruleOf; split_ifs <;> simp_all

theorem ruleOf_eq_issue_iff (l : GoString) :
    ruleOf l = Rule.issue ↔
      hasIDLabel l = false ∧ hasNameLabel l = false ∧ hasBirthLabel l = false ∧
        hasAddressLabel l = false ∧ hasIssueLabel l = true := by
  unfold ruleOf; split_ifs <;> simp_all

theorem ruleOf_eq_expiry_iff (l : GoString) :
    ruleOf l = Rule.expiry ↔
      hasIDLabel l = false ∧ hasNameLabel l = false ∧ hasBirthLabel l = false ∧
        hasAddressLabel l = false ∧ hasIssueLabel l = false ∧ hasExpiryLabel l = true := by
  unfold ruleOf; split_ifs <;> simp_all

theorem hasIDLabel_false_of_sub (a b : GoString) (hab : a <:+: b) (h : hasIDLabel b = false) :
    hasIDLabel a = false := by
  unfold hasIDLabel at *
  simp only [Bool.or_eq_false_iff] at *
  exact ⟨contains_false_of_sub a b _ hab h.1, contains_false_of_sub a b _ hab h.2⟩

theorem hasNameLabel_false_of_sub (a b : GoString) (hab : a <:+: b)
    (h : hasNameLabel b = false) : hasNameLabel a = false := by
  unfold hasNameLabel at *
  simp only [Bool.or_eq_false_iff] at *
  exact ⟨contains_false_of_sub a b _ hab h.1, contains_false_of_sub a b _ hab h.2⟩

theorem hasBirthLabel_false_of_sub (a b : GoString) (hab : a <:+: b)
    (h : hasBirthLabel b = false) : hasBirthLabel a = false := by
  unfold hasBirthLabel at *
  simp only [Bool.or_eq_false_iff] at *
  exact ⟨contains_false_of_sub a b _ hab h.1, contains_false_of_sub a b _ hab h.2⟩

theorem hasAddressLabel_false_of_sub (a b : GoString) (hab : a <:+: b)
    (h : hasAddressLabel b = false) : hasAddressLabel a = false :=
  contains_false_of_sub a b _ hab h

theorem hasIssueLabel_false_of_sub (a b : GoString) (hab : a <:+: b)
    (h : hasIssueLabel b = false) : hasIssueLabel a = false := by
  unfold hasIssueLabel at *
  simp only [Bool.or_eq_false_iff] at *
  exact ⟨contains_false_of_sub a b _ hab h.1, contains_false_of_sub a b _ hab h.2⟩

theorem hasExpiryLabel_false_of_sub (a b : GoString) (hab : a <:+: b)
    (h : hasExpiryLabel b = false) : hasExpiryLabel a = false := by
  unfold hasExpiryLabel at *
  simp only [Bool.or_eq_false_iff] at *
  exact ⟨contains_false_of_sub a b _ hab h.1, contains_false_of_sub a b _ hab h.2⟩

theorem trimmed_line_sub (s l : GoString) (hl : l ∈ splitOn '\n' s) : trimSpace l <:+: s :=
  (trimSpace_sub l).trans (mem_splitOn_sub '\n' s l hl)

/-! ## Lemmas on `extractAddress` -/

theorem startIndex_eq_some (lines : List GoString) (N : Nat) (a : GoString)
    (ha : lines[N]? = some a) (hc : contains a addressLabel = true)
    (hfirst : ∀ j l, j < N → lines[j]? = some l → contains l addressLabel = false) :
    startIndex lines = some N := by
  induction lines generalizing N with
  | nil => simp at ha
  | cons x lines ih =>
    cases N with
    | zero =>
      simp only [List.getElem?_cons_zero, Option.some.injEq] at ha
      subst ha
      simp only [startIndex, hc, if_true]
    | succ N =>
      have hx : contains x addressLabel = false := hfirst 0 x (Nat.succ_pos _) (by simp)
      simp only [List.getElem?_cons_succ] at ha
      have := ih N ha (fun j l hj hl => hfirst (j + 1) l (by omega) (by simpa using hl))
      simp [startIndex, hx, this]

theorem startIndex_some_spec (lines : List GoString) (N : Nat) (h : startIndex lines = some N) :
    ∃ a, lines[N]? = some a ∧ contains a addressLabel = true ∧
      ∀ j l, j < N → lines[j]? = some l → contains l addressLabel = false := by
  induction lines generalizing N with
  | nil => simp [startIndex] at h
  | cons x lines ih =>
    simp only [startIndex] at h
    split at h
    · rename_i hx
      simp only [Option.some.injEq] at h
      subst h
      exact ⟨x, by simp, hx, fun j l hj => absurd hj (Nat.not_lt_zero _)⟩
    · rename_i hx
      simp only [Option.map_eq_some'] at h
      obtain ⟨i, hi, rfl⟩ := h
      obtain ⟨a, h1, h2, h3⟩ := ih i hi
      refine ⟨a, by simpa using h1, h2, ?_⟩
      intro j l hj hl
      cases j with
      | zero =>
        simp only [List.getElem?_cons_zero, Option.some.injEq] at hl
        subst hl; simpa using hx
      | succ j =>
        simp only [List.getElem?_cons_succ] at hl
        exact h3 j l (by omega) hl

theorem startIndex_eq_none_iff (lines : List GoString) :
    startIndex lines = none ↔ ∀ l ∈ lines, contains l addressLabel = false := by
  induction lines with
  | nil => simp [startIndex]
  | cons x lines ih =>
    simp only [startIndex, List.mem_cons, forall_eq_or_imp]
    split
    · rename_i hx; simp [hx]
    · rename_i hx
      simp only [Option.map_eq_none', ih]
      simp at hx
      simp [hx]

theorem slice_two {α : Type} (xs : List α) (N : Nat) (a b : α) (ha : xs[N]? = some a)
    (hb : xs[N + 1]? = some b) : slice xs N (N + 2) = some [a, b] := by
  induction xs generalizing N with
  | nil => simp at ha
  | cons x xs ih =>
    cases N with
    | zero =>
      simp only [List.getElem?_cons_zero, Option.some.injEq] at ha
      simp only [zero_add, List.getElem?_cons_succ] at hb
      subst ha
      cases xs with
      | nil => simp at hb
      | cons y ys =>
        simp only [List.getElem?_cons_zero, Option.some.injEq] at hb
        subst hb
        simp [slice]
    | succ N =>
      simp only [List.getElem?_cons_succ] at ha hb
      have := ih N ha hb
      unfold slice at this ⊢
      split at this
      · rename_i hle
        rw [if_pos (by simp only [List.length_cons]; omega)]
        simp only [Option.some.injEq] at this
        simp only [List.drop_succ_cons, Option.some.injEq]
        have e : N + 1 + 2 - (N + 1) = N + 2 - N := by omega
        rw [e]; exact this
      · cases this

theorem slice_two_some {α : Type} (xs : List α) (N : Nat) (ys : List α)
    (h : slice xs N (N + 2) = some ys) :
    ∃ a b, xs[N]? = some a ∧ xs[N + 1]? = some b ∧ ys = [a, b] := by
  unfold slice at h
  split at h
  · rename_i hle
    have h1 : N < xs.length := by omega
    have h2 : N + 1 < xs.length := by omega
    have := slice_two xs N xs[N] xs[N + 1] (List.getElem?_eq_getElem h1)
      (List.getElem?_eq_getElem h2)
    unfold slice at this
    rw [if_pos hle] at this
    rw [this] at h
    simp only [Option.some.injEq] at h
    exact ⟨xs[N], xs[N + 1], List.getElem?_eq_getElem h1, List.getElem?_eq_getElem h2, h.symm⟩
  · cases h

/-- The result of `extractAddress` when the first label line has a successor. -/
theorem extractAddress_eq (lines : List GoString) (N : Nat) (a b : GoString)
    (ha : lines[N]? = some a) (hb : lines[N + 1]? = some b)
    (hc : contains a addressLabel = true)
    (hfirst : ∀ j l, j < N → lines[j]? = some l → contains l addressLabel = false) :
    extractAddress lines = some (a ++ ' ' :: b) := by
  unfold extractAddress
  rw [startIndex_eq_some lines N a ha hc hfirst]
  simp only [slice_two lines N a b ha hb, Option.map_some', join, List.append_assoc,
    List.singleton_append]

/-- The address of a returned record is the value of `extractAddress` as soon as
some line takes the address branch. -/
theorem parseLoop_address (lines rest : List GoString) (p r : ParsedData)
    (h : parseLoop lines rest p = some r)
    (hfire : extractAddress lines = some p.Address ∨
      ∃ l ∈ rest, ruleOf (trimSpace l) = Rule.address) :
    extractAddress lines = some r.Address := by
  induction rest generalizing p with
  | nil =>
    simp only [parseLoop, Option.some.injEq] at h
    subst h
    rcases hfire with h1 | ⟨l, hl, _⟩
    · exact h1
    · simp at hl
  | cons x rest ih =>
    simp only [parseLoop, parseLine_eq] at h
    cases hrule : ruleOf (trimSpace x) <;> rw [hrule] at h <;> simp only at h
    case address =>
      cases ha : extractAddress lines with
      | none => rw [ha] at h; cases h
      | some a =>
        rw [ha] at h
        rw [← ha]
        exact ih _ h (Or.inl ha)
    all_goals
      apply ih _ h
      rcases hfire with h1 | ⟨l, hl, hla⟩
      · exact Or.inl h1
      · rcases List.mem_cons.1 hl with e | e
        · subst e; rw [hrule] at hla; cases hla
        · exact Or.inr ⟨l, e, hla⟩

/-- The last line that takes a branch decides the field of that branch. -/
theorem parseLoop_last (lines pre post : List GoString) (l : GoString) (p r : ParsedData)
    (h : parseLoop lines (pre ++ l :: post) p = some r) :
    (ruleOf (trimSpace l) = Rule.id → (∀ m ∈ post, ruleOf (trimSpace m) ≠ Rule.id) →
      r.IDCardNumber = extractIDCardNumber (trimSpace l)) ∧
    (ruleOf (trimSpace l) = Rule.name → (∀ m ∈ post, ruleOf (trimSpace m) ≠ Rule.name) →
      r.Name = (extractName (trimSpace l)).1 ∧ r.LastName = (extractName (trimSpace l)).2) ∧
    (ruleOf (trimSpace l) = Rule.birth → (∀ m ∈ post, ruleOf (trimSpace m) ≠ Rule.birth) →
      r.DateOfBirth = extractDate (trimSpace l)) ∧
    (ruleOf (trimSpace l) = Rule.issue → (∀ m ∈ post, ruleOf (trimSpace m) ≠ Rule.issue) →
      r.DateOfIssue = extractDate (trimSpace l)) ∧
    (ruleOf (trimSpace l) = Rule.expiry → (∀ m ∈ post, ruleOf (trimSpace m) ≠ Rule.expiry) →
      r.DateOfExpiry = extractDate (trimSpace l)) := by
  rw [parseLoop_append] at h
  cases h1 : parseLoop lines pre p with
  | none => rw [h1] at h; cases h
  | some p1 =>
    rw [h1] at h
    simp only [Option.some_bind, parseLoop, parseLine_eq] at h
    refine ⟨?_, ?_, ?_, ?_, ?_⟩ <;> intro hrule hpost <;> rw [hrule] at h <;> simp only at h
    · rw [(parseLoop_frame _ _ _ _ h).1 hpost]
    · have := (parseLoop_frame _ _ _ _ h).2.1 hpost
      exact this
    · rw [(parseLoop_frame _ _ _ _ h).2.2.1 hpost]
    · rw [(parseLoop_frame _ _ _ _ h).2.2.2.2.1 hpost]
    · rw [(parseLoop_frame _ _ _ _ h).2.2.2.2.2 hpost]

/-! ## The ID pattern and its shape -/

theorem hasShape_nil_left (s : GoString) : hasShape [] s = true ↔ s = [] := by
  cases s <;> simp [hasShape]

theorem hasShape_length (ps : List (Char → Bool)) (s : GoString) (h : hasShape ps s = true) :
    s.length = ps.length := by
  induction ps generalizing s with
  | nil => rw [hasShape_nil_left] at h; subst h; rfl
  | cons p ps ih =>
    cases s with
    | nil => simp [hasShape] at h
    | cons c cs =>
      simp only [hasShape, Bool.and_eq_true] at h
      simp [ih cs h.2]

theorem hasShape_append (ps qs : List (Char → Bool)) (a b : GoString)
    (ha : hasShape ps a = true) (hb : hasShape qs b = true) :
    hasShape (ps ++ qs) (a ++ b) = true := by
  induction ps generalizing a with
  | nil => rw [hasShape_nil_left] at ha; subst ha; exact hb
  | cons p ps ih =>
    cases a with
    | nil => simp [hasShape] at ha
    | cons c cs =>
      simp only [hasShape, Bool.and_eq_true] at ha
      simp only [List.cons_append, hasShape, Bool.and_eq_true]
      exact ⟨ha.1, ih cs ha.2⟩

theorem hasShape_append_inv (ps qs : List (Char → Bool)) (m : GoString)
    (h : hasShape (ps ++ qs) m = true) :
    ∃ a b, m = a ++ b ∧ hasShape ps a = true ∧ hasShape qs b = true := by
  induction ps generalizing m with
  | nil => exact ⟨[], m, rfl, rfl, h⟩
  | cons p ps ih =>
    cases m with
    | nil => simp [hasShape] at h
    | cons c cs =>
      simp only [List.cons_append, hasShape, Bool.and_eq_true] at h
      obtain ⟨a, b, rfl, h1, h2⟩ := ih cs h.2
      exact ⟨c :: a, b, rfl, by simp [hasShape, h.1, h1], h2⟩

theorem hasShape_replicate (cls : Char → Bool) (k : Nat) (a : GoString) :
    hasShape (List.replicate k cls) a = true ↔ a.length = k ∧ ∀ c ∈ a, cls c = true := by
  induction k generalizing a with
  | zero =>
    simp only [List.replicate_zero, hasShape_nil_left, List.length_eq_zero]
    constructor
    · rintro rfl; simp
    · exact fun h => h.1
  | succ k ih =>
    cases a with
    | nil => simp [List.replicate_succ, hasShape]
    | cons c cs =>
      simp only [List.replicate_succ, hasShape, Bool.and_eq_true, ih, List.length_cons,
        Nat.add_right_cancel_iff, List.mem_cons, forall_eq_or_imp]
      tauto

/-- A pattern made of exact repetitions matches, anchored, exactly the strings
that start with a string of its shape. -/
theorem matchSeq_exact_pattern (pat : List Rep) (hpat : ∀ r ∈ pat, r.max = some r.min)
    (s : GoString) (n : Nat) :
    matchSeq pat s = some n ↔
      n = (expand pat).length ∧ ∃ m t, s = m ++ t ∧ hasShape (expand pat) m = true := by
  induction pat generalizing s n with
  | nil =>
    simp only [matchSeq, Option.some.injEq, expand, List.length_nil]
    constructor
    · rintro rfl; exact ⟨rfl, [], s, rfl, rfl⟩
    · rintro ⟨rfl, _⟩; rfl
  | cons r rs ih =>
    obtain ⟨cls, k, mx⟩ := r
    have hmx : mx = some k := hpat ⟨cls, k, mx⟩ (List.mem_cons_self _ _)
    subst hmx
    have ih2 := fun s n => ih (fun r hr => hpat r (List.mem_cons_of_mem _ hr)) s n
    rw [matchSeq_exact_iff]
    simp only [expand, List.length_append, List.length_replicate]
    constructor
    · rintro ⟨a, t, rfl, hlen, hcls, j, hj, rfl⟩
      obtain ⟨rfl, m2, t2, rfl, hsh⟩ := (ih2 t j).1 hj
      refine ⟨rfl, a ++ m2, t2, by simp, ?_⟩
      exact hasShape_append _ _ _ _ ((hasShape_replicate cls k a).2 ⟨hlen, hcls⟩) hsh
    · rintro ⟨rfl, m, t, rfl, hsh⟩
      obtain ⟨a, b, rfl, h1, h2⟩ := hasShape_append_inv _ _ _ hsh
      rw [hasShape_replicate] at h1
      exact ⟨a, b ++ t, by simp, h1.1, h1.2, (expand rs).length,
        (ih2 (b ++ t) _).2 ⟨rfl, b, t, rfl, h2⟩, rfl⟩

theorem expand_idPattern : expand idPattern = idShape := rfl

/-- Anchored matches of the ID pattern: 17 characters of the ID shape. -/
theorem matchSeq_idPattern (s : GoString) (n : Nat) :
    matchSeq idPattern s = some n ↔
      n = 17 ∧ ∃ m t, s = m ++ t ∧ hasShape idShape m = true := by
  rw [matchSeq_exact_pattern idPattern (by simp [idPattern]) s n, expand_idPattern]
  rfl

theorem matchSeq_idPattern_none (s : GoString) :
    matchSeq idPattern s = none ↔ ∀ m t, s = m ++ t → hasShape idShape m = false := by
  constructor
  · intro h m t hs
    cases hm : hasShape idShape m with
    | false => rfl
    | true =>
      have := (matchSeq_idPattern s 17).2 ⟨rfl, m, t, hs, hm⟩
      rw [h] at this; cases this
  · intro h
    cases hm : matchSeq idPattern s with
    | none => rfl
    | some n =>
      obtain ⟨_, m, t, hs, hsh⟩ := (matchSeq_idPattern s n).1 hm
      rw [h m t hs] at hsh; cases hsh

theorem findMatch_none (pat : List Rep) (s : GoString) (h : findMatch pat s = none) :
    ∀ pre rest, s = pre ++ rest → matchSeq pat rest = none := by
  induction s with
  | nil =>
    intro pre rest hs
    obtain ⟨h1, h2⟩ := List.append_eq_nil.1 hs.symm
    subst h1 h2
    simp only [findMatch, Option.map_eq_none'] at h
    exact h
  | cons c s ih =>
    simp only [findMatch] at h
    split at h
    · cases h
    · rename_i hm
      intro pre rest hs
      cases pre with
      | nil => simp only [List.nil_append] at hs; subst hs; exact hm
      | cons x pre =>
        simp only [List.cons_append, List.cons.injEq] at hs
        exact ih h pre rest hs.2

theorem findMatch_some (pat : List Rep) (s m : GoString) (h : findMatch pat s = some m) :
    ∃ pre rest n, s = pre ++ rest ∧ matchSeq pat rest = some n ∧ m = rest.take n ∧
      ∀ pre2 rest2, s = pre2 ++ rest2 → pre2.length < pre.length →
        matchSeq pat rest2 = none := by
  induction s with
  | nil =>
    simp only [findMatch, Option.map_eq_some'] at h
    obtain ⟨n, hn, rfl⟩ := h
    exact ⟨[], [], n, rfl, hn, rfl, fun _ _ _ hlt => absurd hlt (Nat.not_lt_zero _)⟩
  | cons c s ih =>
    simp only [findMatch] at h
    split at h
    · rename_i n hn
      simp only [Option.some.injEq] at h
      exact ⟨[], c :: s, n, rfl, hn, h.symm, fun _ _ _ hlt => absurd hlt (Nat.not_lt_zero _)⟩
    · rename_i hm
      obtain ⟨pre, rest, n, hs, hn, hmr, hleft⟩ := ih h
      refine ⟨c :: pre, rest, n, by simp [hs], hn, hmr, ?_⟩
      intro pre2 rest2 hs2 hlt
      cases pre2 with
      | nil => simp only [List.nil_append] at hs2; subst hs2; exact hm
      | cons x pre2 =>
        simp only [List.cons_append, List.cons.injEq] at hs2
        exact hleft pre2 rest2 hs2.2 (by simpa using hlt)

theorem isDigit_ne_space (c : Char) (h : isDigit c = true) : (c != ' ') = true := by
  simp only [bne_iff_ne, ne_eq]
  rintro rfl
  revert h
  decide

/-- Deleting the spaces of a string of the ID shape leaves 13 digits. -/
theorem removeSpaces_idShape (m : GoString) (h : hasShape idShape m = true) :
    (removeSpaces m).length = 13 ∧ ∀ c ∈ removeSpaces m, isDigit c = true := by
  rcases m with _ | ⟨c1, _ | ⟨c2, _ | ⟨c3, _ | ⟨c4, _ | ⟨c5, _ | ⟨c6, _ | ⟨c7, _ | ⟨c8, _ | ⟨c9,
    _ | ⟨c10, _ | ⟨c11, _ | ⟨c12, _ | ⟨c13, _ | ⟨c14, _ | ⟨c15, _ | ⟨c16, _ | ⟨c17, _ | ⟨c18, m⟩⟩⟩⟩⟩⟩⟩⟩⟩⟩⟩⟩⟩⟩⟩⟩⟩⟩ <;>
    simp only [idShape, hasShape, Bool.and_eq_true, Bool.and_true, Bool.false_eq_true,
      and_false] at h
  obtain ⟨h1, h2, h3, h4, h5, h6, h7, h8, h9, h10, h11, h12, h13, h14, h15, h16, h17⟩ := h
  simp only [isBlank, beq_iff_eq] at h2 h7 h13 h16
  subst h2 h7 h13 h16
  simp [removeSpaces, List.filter, isDigit_ne_space, h1, h3, h4, h5, h6, h8, h9, h10, h11, h12,
    h14, h15, h17]

theorem parse_single_line (line : GoString) (h : '\n' ∉ line) :
    parseOCRDescription line = parseLine [line] {} line := by
  unfold parseOCRDescription
  simp only [splitOn_of_not_mem '\n' line h, parseLoop]
  cases parseLine [line] {} line <;> rfl

theorem isDigit_not_space (c : Char) (h : isDigit c = true) : isSpace c = false := by
  unfold isDigit at h
  unfold isSpace
  simp only [Bool.and_eq_true, decide_eq_true_eq] at h
  simp only [Bool.or_eq_false_iff, Bool.and_eq_false_iff, decide_eq_false_iff_not, beq_eq_false_iff_ne]
  omega

theorem isDigit_ne_newline (c : Char) (h : isDigit c = true) : c ≠ '\n' := by
  rintro rfl
  revert h
  decide

theorem isWord_ne_newline (c : Char) (h : isWord c = true) : c ≠ '\n' := by
  rintro rfl
  revert h
  decide

theorem isWord_ne_space (c : Char) (h : isWord c = true) : c ≠ ' ' := by
  rintro rfl
  revert h
  decide

theorem isDigit_isWord (c : Char) (h : isDigit c = true) : isWord c = true := by
  simp [isWord, h]

/-- The grouped form of 13 digits: its shape, its digits, its ends. -/
theorem groupID_spec (ds : GoString) (hlen : ds.length = 13) (hd : ∀ c ∈ ds, isDigit c = true) :
    hasShape idShape (groupID ds) = true ∧ removeSpaces (groupID ds) = ds ∧
      '\n' ∉ groupID ds ∧ (groupID ds).length = 17 ∧
      (∀ c, (groupID ds).getLast? = some c → isSpace c = false) := by
  rcases ds with _ | ⟨c1, _ | ⟨c2, _ | ⟨c3, _ | ⟨c4, _ | ⟨c5, _ | ⟨c6, _ | ⟨c7, _ | ⟨c8, _ | ⟨c9,
    _ | ⟨c10, _ | ⟨c11, _ | ⟨c12, _ | ⟨c13, _ | ⟨c14, m⟩⟩⟩⟩⟩⟩⟩⟩⟩⟩⟩⟩⟩⟩ <;>
    simp only [List.length_cons, List.length_nil] at hlen <;> try omega
  simp only [List.mem_cons, List.mem_singleton, forall_eq_or_imp, forall_eq, List.not_mem_nil,
    false_imp_iff, implies_true, and_true] at hd
  obtain ⟨h1, h2, h3, h4, h5, h6, h7, h8, h9, h10, h11, h12, h13⟩ := hd
  refine ⟨?_, ?_, ?_, ?_, ?_⟩
  · simp [groupID, idShape, hasShape, isBlank, h1, h2, h3, h4, h5, h6, h7, h8, h9, h10, h11,
      h12, h13]
  · simp [groupID, removeSpaces, List.filter, isDigit_ne_space, h1, h2, h3, h4, h5, h6, h7, h8,
      h9, h10, h11, h12, h13]
  · simp only [groupID, List.take, List.drop, List.cons_append, List.nil_append, List.mem_cons,
      List.not_mem_nil, or_false, not_or]
    refine ⟨?_, ?_, ?_, ?_, ?_, ?_, ?_, ?_, ?_, ?_, ?_, ?_, ?_, ?_, ?_, ?_, ?_⟩ <;>
      first
        | decide
        | exact fun e => isDigit_ne_newline _ (by assumption) e.symm
  · simp [groupID]
  · intro c hc
    simp only [groupID, List.take, List.drop, List.cons_append, List.nil_append,
      List.getLast?_cons_cons, List.getLast?_singleton, Option.some.injEq] at hc
    subst hc
    exact isDigit_not_space _ h13

/-- The ID number extracted from a digit group that follows text without
digits. -/
theorem extractIDCardNumber_after (pre g : GoString) (hpre : ∀ c ∈ pre, isDigit c = false)
    (hg : hasShape idShape g = true) : extractIDCardNumber (pre ++ g) = removeSpaces g := by
  have hlen : g.length = 17 := hasShape_length _ _ hg
  have hne : g ≠ [] := by rintro rfl; simp at hlen
  unfold extractIDCardNumber findString
  have h1 : findMatch idPattern (pre ++ g) = findMatch idPattern g :=
    findMatch_skip_prefix _ _ pre g (by decide) hpre
  have h2 : matchSeq idPattern g = some 17 :=
    (matchSeq_idPattern g 17).2 ⟨rfl, g, [], by simp, hg⟩
  rw [h1, findMatch_hit idPattern g 17 hne h2, ← hlen, List.take_length]
  rfl

theorem contains_self_append (a b : GoString) : contains (a ++ b) a = true := by
  rw [contains_iff]
  exact (List.prefix_append a b).isInfix

theorem getLast?_append_cons (a : GoString) (x : Char) (b : GoString) :
    (a ++ x :: b).getLast? = (x :: b).getLast? := by
  rw [List.getLast?_append]
  cases h : (x :: b).getLast? with
  | none => simp at h
  | some v => rfl

theorem getLast?_append_cons_ne (a : GoString) (x : Char) (b : GoString) (hb : b ≠ []) :
    (a ++ x :: b).getLast? = b.getLast? := by
  obtain ⟨y, b2, rfl⟩ := List.exists_cons_of_ne_nil hb
  have e : a ++ x :: y :: b2 = (a ++ [x]) ++ y :: b2 := by simp
  rw [e, getLast?_append_cons]

theorem head?_append_of_ne (a b : GoString) (ha : a ≠ []) : (a ++ b).head? = a.head? := by
  obtain ⟨y, a2, rfl⟩ := List.exists_cons_of_ne_nil ha
  rfl

/-! ## Substrings of a concatenation -/

theorem prefix_append_cases (p x y : GoString) (h : p <+: x ++ y) :
    p <+: x ∨ ∃ q, p = x ++ q ∧ q <+: y := by
  obtain ⟨t, ht⟩ := h
  rcases List.append_eq_append_iff.1 ht with ⟨a, ha, _⟩ | ⟨c, hc, hy⟩
  · left; exact ⟨a, ha.symm⟩
  · right; exact ⟨c, hc, ⟨t, hy.symm⟩⟩

/-- A substring of `a ++ c :: b` lies in `a`, lies in `b`, or contains the
character `c` of the middle. -/
theorem infix_append_cons (p a b : GoString) (c : Char) (h : p <:+: a ++ c :: b) :
    p <:+: a ∨ p <:+: b ∨ ∃ p1 p2, p = p1 ++ c :: p2 ∧ p1 <:+ a ∧ p2 <+: b := by
  induction a with
  | nil =>
    rcases List.infix_cons_iff.1 h with h1 | h1
    · cases p with
      | nil => left; exact List.nil_infix
      | cons d p =>
        obtain ⟨rfl, hp⟩ := List.cons_prefix_cons.1 h1
        right; right
        exact ⟨[], p, rfl, List.suffix_refl _, hp⟩
    · right; left; exact h1
  | cons d a ih =>
    rw [List.cons_append] at h
    rcases List.infix_cons_iff.1 h with h1 | h1
    · rw [← List.cons_append] at h1
      rcases prefix_append_cases _ _ _ h1 with h2 | ⟨q, rfl, hq⟩
      · left; exact h2.isInfix
      · cases q with
        | nil => left; rw [List.append_nil]
        | cons e q =>
          obtain ⟨rfl, hq2⟩ := List.cons_prefix_cons.1 hq
          right; right
          exact ⟨d :: a, q, rfl, List.suffix_refl _, hq2⟩
    · rcases ih h1 with h2 | h2 | ⟨p1, p2, rfl, hs, hp⟩
      · left; exact h2.trans (List.infix_cons (List.infix_refl _))
      · right; left; exact h2
      · right; right
        exact ⟨p1, p2, rfl, hs.trans (List.suffix_cons d a), hp⟩

/-- A substring without spaces of `a ++ ' ' :: b` lies in `a` or in `b`. -/
theorem infix_of_no_space (p a b : GoString) (hp : ' ' ∉ p) (h : p <:+: a ++ ' ' :: b) :
    p <:+: a ∨ p <:+: b := by
  rcases infix_append_cons p a b ' ' h with h1 | h1 | ⟨p1, p2, rfl, _, _⟩
  · exact Or.inl h1
  · exact Or.inr h1
  · exact absurd (by simp) hp

/-- An occurrence of `x`, space, `y` in `a ++ ' ' :: b` lies in `a`, lies in
`b`, or sits on the middle space. -/
theorem adj_append_cons (x y : Char) (a b : GoString) (hx : x ≠ ' ') (hy : y ≠ ' ')
    (h : [x, ' ', y] <:+: a ++ ' ' :: b) :
    [x, ' ', y] <:+: a ∨ [x, ' ', y] <:+: b ∨ (a.getLast? = some x ∧ b.head? = some y) := by
  rcases infix_append_cons _ a b ' ' h with h1 | h1 | ⟨p1, p2, he, hs, hp⟩
  · exact Or.inl h1
  · exact Or.inr (Or.inl h1)
  · right; right
    rcases p1 with _ | ⟨u, _ | ⟨v, p1⟩⟩
    · simp only [List.nil_append, List.cons.injEq] at he
      exact absurd he.1 hx
    · simp only [List.singleton_append, List.cons.injEq, true_and] at he
      obtain ⟨rfl, rfl⟩ := he
      constructor
      · obtain ⟨t, rfl⟩ := hs
        simp
      · obtain ⟨t, rfl⟩ := hp
        rfl
    · simp only [List.cons_append, List.cons.injEq] at he
      obtain ⟨_, _, he3⟩ := he
      rcases p1 with _ | ⟨w, p1⟩
      · simp only [List.nil_append, List.cons.injEq] at he3
        exact absurd he3.1 hy
      · simp at he3

theorem not_infix_of_not_mem (p l : GoString) (c : Char) (hc : c ∈ p) (hl : c ∉ l) :
    ¬ p <:+: l := fun h => hl (h.subset hc)

theorem contains_false_of_not_mem (p l : GoString) (c : Char) (hc : c ∈ p) (hl : c ∉ l) :
    contains l p = false :=
  (contains_false_iff l p).2 (not_infix_of_not_mem p l c hc hl)

/-! ## Date lines -/

theorem wellFormedDate_spec (ds w ys : GoString) (h : wellFormedDate ds w ys = true) :
    (ds.length = 1 ∨ ds.length = 2) ∧ (∀ c ∈ ds, isDigit c = true) ∧ w ≠ [] ∧
      (∀ c ∈ w, isWord c = true) ∧ ys.length = 4 ∧ (∀ c ∈ ys, isDigit c = true) := by
  simp only [wellFormedDate, Bool.and_eq_true, Bool.or_eq_true, beq_iff_eq, List.all_eq_true,
    Bool.not_eq_true', List.isEmpty_eq_false] at h
  obtain ⟨⟨⟨⟨⟨h1, h2⟩, h3⟩, h4⟩, h5⟩, h6⟩ := h
  exact ⟨h1, h2, h3, h4, h5, h6⟩

theorem isWord_not_space (c : Char) (h : isWord c = true) : isSpace c = false := by
  unfold isWord isDigit at h
  unfold isSpace
  simp only [Bool.or_eq_true, Bool.and_eq_true, decide_eq_true_eq, beq_iff_eq] at h
  simp only [Bool.or_eq_false_iff, Bool.and_eq_false_iff, decide_eq_false_iff_not,
    beq_eq_false_iff_ne]
  omega

theorem isWord_not_blank (c : Char) (h : isWord c = true) : isBlank c = false := by
  simp only [isBlank, beq_eq_false_iff_ne]
  exact isWord_ne_space c h

/-- Every character of a date is a space or a character of `\w`. -/
theorem mem_dateText (ds w ys : GoString) (hwf : wellFormedDate ds w ys = true) (c : Char)
    (hc : c ∈ dateText ds w ys) : c = ' ' ∨ isWord c = true := by
  obtain ⟨_, h2, _, h4, _, h6⟩ := wellFormedDate_spec ds w ys hwf
  simp only [dateText, List.mem_append, List.mem_cons] at hc
  rcases hc with hc | hc | hc | hc | hc
  · exact Or.inr (isDigit_isWord c (h2 c hc))
  · exact Or.inl hc
  · exact Or.inr (h4 c hc)
  · exact Or.inl hc
  · exact Or.inr (isDigit_isWord c (h6 c hc))

theorem dateText_ne_nil (ds w ys : GoString) : dateText ds w ys ≠ [] := by
  simp [dateText]

theorem dateText_getLast (ds w ys : GoString) (hwf : wellFormedDate ds w ys = true) (c : Char)
    (hc : (dateText ds w ys).getLast? = some c) : isSpace c = false := by
  obtain ⟨_, _, _, _, h5, h6⟩ := wellFormedDate_spec ds w ys hwf
  have hys : ys ≠ [] := by rintro rfl; simp at h5
  unfold dateText at hc
  rw [getLast?_append_cons_ne _ _ _ (by simp), getLast?_append_cons_ne _ _ _ hys] at hc
  exact isDigit_not_space c (h6 c (List.mem_of_getLast?_eq_some hc))

/-- The date pattern, anchored at a well-formed date, matches all of it. -/
theorem matchSeq_datePattern (ds w ys : GoString) (hwf : wellFormedDate ds w ys = true) :
    matchSeq datePattern (dateText ds w ys) = some (dateText ds w ys).length := by
  obtain ⟨h1, h2, h3, h4, h5, h6⟩ := wellFormedDate_spec ds w ys hwf
  obtain ⟨w0, w1, rfl⟩ := List.exists_cons_of_ne_nil h3
  have hys : ys ≠ [] := by rintro rfl; simp at h5
  obtain ⟨y0, y1, rfl⟩ := List.exists_cons_of_ne_nil hys
  have s5 : matchSeq [⟨isDigit, 4, some 4⟩] ((y0 :: y1) ++ []) = some ((y0 :: y1).length + 0) :=
    matchSeq_hit _ _ _ _ _ h6 (by simp) (by simp only; omega)
      (by intro m hm; simp only [Option.some.injEq] at hm; omega) rfl
  have s4 : matchSeq [⟨isBlank, 1, some 1⟩, ⟨isDigit, 4, some 4⟩] ([' '] ++ ((y0 :: y1) ++ [])) =
      some ([' '].length + ((y0 :: y1).length + 0)) :=
    matchSeq_hit _ _ _ _ _ (by simp [isBlank])
      (by
        intro c hc
        simp only [List.cons_append, List.head?_cons, Option.some.injEq] at hc
        subst hc
        have := isDigit_ne_space _ (h6 y0 (List.mem_cons_self _ _))
        simpa [isBlank] using this)
      (by simp) (by simp) s5
  have s3 : matchSeq [⟨isWord, 1, none⟩, ⟨isBlank, 1, some 1⟩, ⟨isDigit, 4, some 4⟩]
      ((w0 :: w1) ++ ([' '] ++ ((y0 :: y1) ++ []))) =
      some ((w0 :: w1).length + ([' '].length + ((y0 :: y1).length + 0))) :=
    matchSeq_hit _ _ _ _ _ h4 (by simp; decide) (by simp) (by simp) s4
  have s2 : matchSeq [⟨isBlank, 1, some 1⟩, ⟨isWord, 1, none⟩, ⟨isBlank, 1, some 1⟩,
      ⟨isDigit, 4, some 4⟩] ([' '] ++ ((w0 :: w1) ++ ([' '] ++ ((y0 :: y1) ++ [])))) =
      some ([' '].length + ((w0 :: w1).length + ([' '].length + ((y0 :: y1).length + 0)))) :=
    matchSeq_hit _ _ _ _ _ (by simp [isBlank])
      (by
        intro c hc
        simp only [List.cons_append, List.head?_cons, Option.some.injEq] at hc
        subst hc
        exact isWord_not_blank _ (h4 w0 (List.mem_cons_self _ _)))
      (by simp) (by simp) s3
  have s1 : matchSeq datePattern
      (ds ++ ([' '] ++ ((w0 :: w1) ++ ([' '] ++ ((y0 :: y1) ++ []))))) =
      some (ds.length +
        ([' '].length + ((w0 :: w1).length + ([' '].length + ((y0 :: y1).length + 0))))) :=
    matchSeq_hit _ _ _ _ _ h2 (by simp; decide) (by simp only; omega)
      (by intro m hm; simp only [Option.some.injEq] at hm; omega) s2
  simp only [List.append_nil, List.singleton_append] at s1
  rw [dateText, s1]
  simp only [List.length_append, List.length_cons, List.length_nil, Option.some.injEq]
  omega

/-- The date extracted from a well-formed date that follows text without
digits. -/
theorem extractDate_after (pre ds w ys : GoString) (hpre : ∀ c ∈ pre, isDigit c = false)
    (hwf : wellFormedDate ds w ys = true) :
    extractDate (pre ++ dateText ds w ys) = dateText ds w ys := by
  unfold extractDate findString
  have h1 : findMatch datePattern (pre ++ dateText ds w ys) =
      findMatch datePattern (dateText ds w ys) :=
    findMatch_skip_prefix _ _ pre _ (by decide) hpre
  rw [h1, findMatch_hit _ _ _ (dateText_ne_nil ds w ys) (matchSeq_datePattern ds w ys hwf),
    List.take_length]
  rfl

/-- A label with a character that is neither in `L`, nor a space, nor in `\w`
does not occur in the line `L`, space, date. -/
theorem dateLine_free_char (L P ds w ys : GoString) (hwf : wellFormedDate ds w ys = true)
    (h : ∃ c ∈ P, c ∉ L ∧ isWord c = false ∧ c ≠ ' ') :
    contains (L ++ ' ' :: dateText ds w ys) P = false := by
  obtain ⟨c, hcP, hcL, hcw, hcs⟩ := h
  apply contains_false_of_not_mem P _ c hcP
  simp only [List.mem_append, List.mem_cons, not_or]
  refine ⟨hcL, hcs, fun hm => ?_⟩
  rcases mem_dateText ds w ys hwf c hm with e | e
  · exact hcs e
  · rw [hcw] at e; cases e

/-- A label in which some space stands between two characters `x` and `y` that
are not digits, a configuration absent from `L`, does not occur in the line
`L`, space, date. -/
theorem dateLine_free_adj (L P ds w ys : GoString) (x y : Char)
    (hwf : wellFormedDate ds w ys = true) (hP : [x, ' ', y] <:+: P)
    (hL : ¬ [x, ' ', y] <:+: L) (hx : isDigit x = false) (hy : isDigit y = false)
    (hxs : x ≠ ' ') (hys : y ≠ ' ') :
    contains (L ++ ' ' :: dateText ds w ys) P = false := by
  obtain ⟨h1, h2, h3, h4, h5, h6⟩ := wellFormedDate_spec ds w ys hwf
  rw [contains_false_iff]
  intro hin
  have hsp : ' ' ∈ [x, ' ', y] := by simp
  have hnd : ∀ l : GoString, (∀ c ∈ l, isDigit c = true) → ¬ [x, ' ', y] <:+: l :=
    fun l hl hi => by
      have := hl _ (hi.subset hsp)
      revert this; decide
  have hdx : ∀ l : GoString, (∀ c ∈ l, isDigit c = true) → x ∉ l :=
    fun l hl hm => by rw [hl x hm] at hx; cases hx
  have hdy : ∀ l : GoString, (∀ c ∈ l, isDigit c = true) → y ∉ l :=
    fun l hl hm => by rw [hl y hm] at hy; cases hy
  have hds : ds ≠ [] := by rintro rfl; simp at h1
  rcases adj_append_cons x y _ _ hxs hys (hP.trans hin) with k | k | ⟨_, k⟩
  · exact hL k
  · unfold dateText at k
    rcases adj_append_cons x y _ _ hxs hys k with k2 | k2 | ⟨k2, _⟩
    · exact hnd ds h2 k2
    · rcases adj_append_cons x y _ _ hxs hys k2 with k3 | k3 | ⟨_, k3⟩
      · have := h4 _ (k3.subset hsp)
        revert this; decide
      · exact hnd ys h6 k3
      · exact hdy ys h6 (List.mem_of_mem_head? k3)
    · exact hdx ds h2 (List.mem_of_getLast?_eq_some k2)
  · unfold dateText at k
    rw [head?_append_of_ne _ _ hds] at k
    exact hdy ds h2 (List.mem_of_mem_head? k)

/-- A label without spaces and with a character that is not a digit occurs in
the line `L`, space, date only inside `L` or inside the word of the date. -/
theorem dateLine_free_word (L P ds w ys : GoString) (hwf : wellFormedDate ds w ys = true)
    (hsp : ' ' ∉ P) (hc : ∃ c ∈ P, isDigit c = false) (hL : ¬ P <:+: L)
    (hw : contains w P = false) :
    contains (L ++ ' ' :: dateText ds w ys) P = false := by
  obtain ⟨_, h2, _, _, _, h6⟩ := wellFormedDate_spec ds w ys hwf
  obtain ⟨c, hcP, hcd⟩ := hc
  rw [contains_false_iff] at hw ⊢
  intro hin
  have hnd : ∀ l : GoString, (∀ c ∈ l, isDigit c = true) → ¬ P <:+: l :=
    fun l hl hi => by rw [hl c (hi.subset hcP)] at hcd; cases hcd
  rcases infix_of_no_space P _ _ hsp hin with k | k
  · exact hL k
  · unfold dateText at k
    rcases infix_of_no_space P _ _ hsp k with k2 | k2
    · exact hnd ds h2 k2
    · rcases infix_of_no_space P _ _ hsp k2 with k3 | k3
      · exact hw k3
      · exact hnd ys h6 k3

/-- A birth-date line takes the birth branch. -/
theorem ruleOf_birth_line (ds w ys : GoString) (hwf : wellFormedDate ds w ys = true)
    (hname : contains w nameLabelEn = false) :
    ruleOf (birthLabelTh ++ ' ' :: dateText ds w ys) = Rule.birth ∧
    ruleOf (birthLabelEn ++ ' ' :: dateText ds w ys) = Rule.birth := by
  constructor <;>
  · rw [ruleOf_eq_birth_iff]
    simp only [hasIDLabel, hasNameLabel, hasBirthLabel, Bool.or_eq_false_iff, Bool.or_eq_true]
    refine ⟨⟨?_, ?_⟩, ⟨?_, ?_⟩, ?_⟩
    · exact dateLine_free_char _ _ _ _ _ hwf (by decide)
    · exact dateLine_free_adj _ _ _ _ _ 'n' 'N' hwf (by decide) (by decide) (by decide)
        (by decide) (by decide) (by decide)
    · exact dateLine_free_char _ _ _ _ _ hwf (by decide)
    · exact dateLine_free_word _ _ _ _ _ hwf (by decide) (by decide) (by decide) hname
    · first
        | exact Or.inl (contains_self_append _ _)
        | exact Or.inr (contains_self_append _ _)

/-- An issue-date line takes the issue branch. -/
theorem ruleOf_issue_line (ds w ys : GoString) (hwf : wellFormedDate ds w ys = true)
    (hname : contains w nameLabelEn = false) :
    ruleOf (issueLabelTh ++ ' ' :: dateText ds w ys) = Rule.issue ∧
    ruleOf (issueLabelEn ++ ' ' :: dateText ds w ys) = Rule.issue := by
  constructor <;>
  · rw [ruleOf_eq_issue_iff]
    simp only [hasIDLabel, hasNameLabel, hasBirthLabel, hasAddressLabel, hasIssueLabel,
      Bool.or_eq_false_iff, Bool.or_eq_true]
    refine ⟨⟨?_, ?_⟩, ⟨?_, ?_⟩, ⟨?_, ?_⟩, ?_, ?_⟩
    · exact dateLine_free_char _ _ _ _ _ hwf (by decide)
    · exact dateLine_free_adj _ _ _ _ _ 'n' 'N' hwf (by decide) (by decide) (by decide)
        (by decide) (by decide) (by decide)
    · exact dateLine_free_char _ _ _ _ _ hwf (by decide)
    · exact dateLine_free_word _ _ _ _ _ hwf (by decide) (by decide) (by decide) hname
    · exact dateLine_free_char _ _ _ _ _ hwf (by decide)
    · exact dateLine_free_adj _ _ _ _ _ 'f' 'B' hwf (by decide) (by decide) (by decide)
        (by decide) (by decide) (by decide)
    · exact dateLine_free_char _ _ _ _ _ hwf (by decide)
    · first
        | exact Or.inl (contains_self_append _ _)
        | exact Or.inr (contains_self_append _ _)

/-- An expiry-date line takes the expiry branch. -/
theorem ruleOf_expiry_line (ds w ys : GoString) (hwf : wellFormedDate ds w ys = true)
    (hname : contains w nameLabelEn = false) :
    ruleOf (expiryLabelTh ++ ' ' :: dateText ds w ys) = Rule.expiry ∧
    ruleOf (expiryLabelEn ++ ' ' :: dateText ds w ys) = Rule.expiry := by
  constructor <;>
  · rw [ruleOf_eq_expiry_iff]
    simp only [hasIDLabel, hasNameLabel, hasBirthLabel, hasAddressLabel, hasIssueLabel,
      hasExpiryLabel, Bool.or_eq_false_iff, Bool.or_eq_true]
    refine ⟨⟨?_, ?_⟩, ⟨?_, ?_⟩, ⟨?_, ?_⟩, ?_, ⟨?_, ?_⟩, ?_⟩
    · exact dateLine_free_char _ _ _ _ _ hwf (by decide)
    · exact dateLine_free_adj _ _ _ _ _ 'n' 'N' hwf (by decide) (by decide) (by decide)
        (by decide) (by decide) (by decide)
    · exact dateLine_free_char _ _ _ _ _ hwf (by decide)
    · exact dateLine_free_word _ _ _ _ _ hwf (by decide) (by decide) (by decide) hname
    · exact dateLine_free_char _ _ _ _ _ hwf (by decide)
    · exact dateLine_free_adj _ _ _ _ _ 'f' 'B' hwf (by decide) (by decide) (by decide)
        (by decide) (by decide) (by decide)
    · exact dateLine_free_char _ _ _ _ _ hwf (by decide)
    · exact dateLine_free_char _ _ _ _ _ hwf (by decide)
    · exact dateLine_free_adj _ _ _ _ _ 'f' 'i' hwf (by decide) (by decide) (by decide)
        (by decide) (by decide) (by decide)
    · first
        | exact Or.inl (contains_self_append _ _)
        | exact Or.inr (contains_self_append _ _)

/-- A labelled date line is left alone by `strings.TrimSpace` and has no
newline. -/
theorem dateLine_shape (L ds w ys : GoString) (hwf : wellFormedDate ds w ys = true)
    (hne : L ≠ []) (hnl : '\n' ∉ L) (hhead : ∀ c, L.head? = some c → isSpace c = false) :
    trimSpace (L ++ ' ' :: dateText ds w ys) = L ++ ' ' :: dateText ds w ys ∧
      '\n' ∉ L ++ ' ' :: dateText ds w ys := by
  constructor
  · apply trimSpace_eq_self
    · intro c hc
      rw [head?_append_of_ne _ _ hne] at hc
      exact hhead c hc
    · intro c hc
      rw [getLast?_append_cons_ne _ _ _ (dateText_ne_nil ds w ys)] at hc
      exact dateText_getLast ds w ys hwf c hc
  · simp only [List.mem_append, List.mem_cons, not_or]
    refine ⟨hnl, by decide, fun hm => ?_⟩
    rcases mem_dateText ds w ys hwf _ hm with e | e
    · revert e; decide
    · revert e; decide

/-! ## The synthetic text of the round trip -/

theorem join_splitOn (sep : Char) (s : GoString) : join [sep] (splitOn sep s) = s := by
  induction s with
  | nil => rfl
  | cons c s ih =>
    by_cases hc : c = sep
    · subst hc
      simp only [splitOn, if_true]
      obtain ⟨p, rest, hp⟩ := List.exists_cons_of_ne_nil (splitOn_ne_nil c s)
      rw [hp] at ih ⊢
      simp only [join, List.nil_append, List.singleton_append, ih]
    · rw [splitOn_cons_ne sep c s hc]
      obtain ⟨p, rest, hp⟩ := List.exists_cons_of_ne_nil (splitOn_ne_nil sep s)
      rw [hp] at ih ⊢
      simp only [List.headD_cons, List.tail_cons]
      cases rest with
      | nil =>
        simp only [join] at ih ⊢
        rw [ih]
      | cons q rest =>
        simp only [join, List.cons_append] at ih ⊢
        rw [ih]

theorem isDateString_spec (d : GoString) (h : isDateString d = true) :
    ∃ ds w ys, d = dateText ds w ys ∧ wellFormedDate ds w ys = true := by
  unfold isDateString at h
  split at h
  · rename_i ds w ys hsplit
    refine ⟨ds, w, ys, ?_, h⟩
    have := join_splitOn ' ' d
    rw [hsplit] at this
    simp only [join, List.append_assoc, List.singleton_append] at this
    exact this.symm
  · cases h

theorem mem_groupID (ds : GoString) (c : Char) (hc : c ∈ groupID ds) : c = ' ' ∨ c ∈ ds := by
  simp only [groupID, List.mem_append, List.mem_cons] at hc
  rcases hc with h | h | h | h | h | h | h | h | h
  · exact Or.inr (List.mem_of_mem_take h)
  · exact Or.inl h
  · exact Or.inr (List.mem_of_mem_drop (List.mem_of_mem_take h))
  · exact Or.inl h
  · exact Or.inr (List.mem_of_mem_drop (List.mem_of_mem_take h))
  · exact Or.inl h
  · exact Or.inr (List.mem_of_mem_drop (List.mem_of_mem_take h))
  · exact Or.inl h
  · exact Or.inr (List.mem_of_mem_drop h)

theorem isSpace_of_blank_or_newline : isSpace ' ' = true ∧ isSpace '\n' = true := by
  decide

/-- The tokens of the synthetic name line: the label, the name, the last name. -/
theorem splitOn_nameLine (name last : GoString) (hn : ∀ c ∈ name, isSpace c = false)
    (hl : ∀ c ∈ last, isSpace c = false) :
    splitOn ' ' (nameLabelTh ++ ' ' :: (name ++ ' ' :: last)) = [nameLabelTh, name, last] := by
  have h1 : ' ' ∉ name := fun hm => by
    have := hn _ hm
    rw [isSpace_of_blank_or_newline.1] at this; cases this
  have h2 : ' ' ∉ last := fun hm => by
    have := hl _ hm
    rw [isSpace_of_blank_or_newline.1] at this; cases this
  rw [splitOn_append_sep ' ' _ _ (by decide), splitOn_append_sep ' ' _ _ h1,
    splitOn_of_not_mem ' ' _ h2]

/-- A labelled ID line is left alone by `strings.TrimSpace` and has no
newline. -/
theorem idLine_shape (L ds : GoString) (hlen : ds.length = 13)
    (hd : ∀ c ∈ ds, isDigit c = true) (hne : L ≠ []) (hnl : '\n' ∉ L)
    (hhead : ∀ c, L.head? = some c → isSpace c = false) :
    trimSpace (L ++ ' ' :: groupID ds) = L ++ ' ' :: groupID ds ∧
      '\n' ∉ L ++ ' ' :: groupID ds := by
  obtain ⟨hshape, _, hgnl, _, hlast⟩ := groupID_spec ds hlen hd
  constructor
  · apply trimSpace_eq_self
    · intro c hc
      rw [head?_append_of_ne _ _ hne] at hc
      exact hhead c hc
    · intro c hc
      have hg : groupID ds ≠ [] := by
        intro e; rw [e] at hshape; simp [hasShape, idShape] at hshape
      rw [getLast?_append_cons_ne _ _ _ hg] at hc
      exact hlast c hc
  · simp only [List.mem_append, List.mem_cons, not_or]
    exact ⟨hnl, by decide, hgnl⟩

/-- A label with a character that is neither in `L`, nor a space, nor a digit
does not occur in the line `L`, space, grouped digits. -/
theorem idLine_free_char (L P ds : GoString) (hd : ∀ c ∈ ds, isDigit c = true)
    (h : ∃ c ∈ P, c ∉ L ∧ isDigit c = false ∧ c ≠ ' ') :
    contains (L ++ ' ' :: groupID ds) P = false := by
  obtain ⟨c, hcP, hcL, hcd, hcs⟩ := h
  apply contains_false_of_not_mem P _ c hcP
  simp only [List.mem_append, List.mem_cons, not_or]
  refine ⟨hcL, hcs, fun hm => ?_⟩
  rcases mem_groupID ds c hm with e | e
  · exact hcs e
  · rw [hd c e] at hcd; cases hcd

theorem word_infix_dateText (ds w ys : GoString) : w <:+: dateText ds w ys :=
  ⟨ds ++ [' '], ' ' :: ys, by simp [dateText]⟩

/-- The synthetic name line is left alone by `strings.TrimSpace`, has no
newline, and `extractName` finds fewer than five tokens on it. -/
theorem nameLine_shape (name last : GoString) (hn : ∀ c ∈ name, isSpace c = false)
    (hl : ∀ c ∈ last, isSpace c = false) (hlne : last ≠ []) :
    trimSpace (nameLabelTh ++ ' ' :: (name ++ ' ' :: last)) =
        nameLabelTh ++ ' ' :: (name ++ ' ' :: last) ∧
      '\n' ∉ nameLabelTh ++ ' ' :: (name ++ ' ' :: last) ∧
      extractName (nameLabelTh ++ ' ' :: (name ++ ' ' :: last)) = ([], []) := by
  refine ⟨?_, ?_, ?_⟩
  · apply trimSpace_eq_self
    · intro c hc
      rw [head?_append_of_ne _ _ (by decide)] at hc
      revert c; decide
    · intro c hc
      rw [getLast?_append_cons_ne _ _ _ (by simp), getLast?_append_cons_ne _ _ _ hlne] at hc
      exact hl c (List.mem_of_getLast?_eq_some hc)
  · simp only [List.mem_append, List.mem_cons, not_or]
    refine ⟨by decide, by decide, fun hm => ?_, by decide, fun hm => ?_⟩
    · have := hn _ hm
      rw [isSpace_of_blank_or_newline.2] at this; cases this
    · have := hl _ hm
      rw [isSpace_of_blank_or_newline.2] at this; cases this
  · unfold extractName
    simp only [splitOn_nameLine name last hn hl]
    rfl

/-- The loop panics as soon as a line takes the address branch while
`extractAddress` panics. -/
theorem parseLoop_none (lines rest : List GoString) (p : ParsedData)
    (hfire : ∃ l ∈ rest, ruleOf (trimSpace l) = Rule.address)
    (hext : extractAddress lines = none) : parseLoop lines rest p = none := by
  cases h : parseLoop lines rest p with
  | none => rfl
  | some r =>
    have := parseLoop_address lines rest p r h (Or.inr hfire)
    rw [hext] at this; cases this

theorem extractAddress_eq_none_iff (lines : List GoString) :
    extractAddress lines = none ↔ ∃ N, startIndex lines = some N ∧ lines.length < N + 2 := by
  unfold extractAddress
  cases h : startIndex lines with
  | none => simp
  | some N =>
    simp only [Option.map_eq_none', Option.some.injEq, exists_eq_left']
    unfold slice
    constructor
    · intro hs
      split at hs
      · cases hs
      · rename_i hn; omega
    · intro hlt
      rw [if_neg (by omega)]

/-- The function `parseOCRDescription` panics exactly when some line takes the
address branch and the first line containing the address label is the last
line of the input. -/
theorem parseOCRDescription_eq_none_iff (s : GoString) :
    parseOCRDescription s = none ↔
      (∃ l ∈ splitOn '\n' s, ruleOf l = Rule.address) ∧
        ∃ N, startIndex (splitOn '\n' s) = some N ∧ (splitOn '\n' s).length < N + 2 := by
  rw [← extractAddress_eq_none_iff]
  constructor
  · intro h
    constructor
    · by_contra hno
      obtain ⟨r, hr⟩ := parseLoop_isSome_of_no_address (splitOn '\n' s) (splitOn '\n' s) {}
        (fun l hl hrule => hno ⟨l, hl, by rw [← ruleOf_trimSpace]; exact hrule⟩)
      have : parseOCRDescription s = some r := hr
      rw [h] at this; cases this
    · cases hext : extractAddress (splitOn '\n' s) with
      | none => rfl
      | some a =>
        obtain ⟨r, hr⟩ := parseLoop_isSome (splitOn '\n' s) (splitOn '\n' s) {} a hext
        have : parseOCRDescription s = some r := hr
        rw [h] at this; cases this
  · rintro ⟨⟨l, hl, hrule⟩, hext⟩
    exact parseLoop_none _ _ _ ⟨l, hl, by rw [ruleOf_trimSpace]; exact hrule⟩ hext

/-! ## The claims -/

/-- C1 (fails on the code): on the one-line input `ที่อยู่ 99 Moo 1` the address
branch is taken, `extractAddress` finds the label on line 0 and evaluates
`lines[0:2]` on a one-element slice, which panics: `parseOCRDescription`
returns no record. -/
theorem C1_panics_on_address_label_in_last_line :
    splitOn '\n' "ที่อยู่ 99 Moo 1".toList = ["ที่อยู่ 99 Moo 1".toList] ∧
    startIndex (splitOn '\n' "ที่อยู่ 99 Moo 1".toList) = some 0 ∧
    slice (splitOn '\n' "ที่อยู่ 99 Moo 1".toList) 0 2 = none ∧
    parseOCRDescription "ที่อยู่ 99 Moo 1".toList = none := by
  decide

/-- C2 (as stated, refuted): the line `ชื่อตัวและชื่อสกุล Mr First Last` does not
yield `Name = "First"` and `LastName = "Last"`. -/
theorem C2_counterexample :
    ¬ ∃ r, parseOCRDescription "ชื่อตัวและชื่อสกุล Mr First Last".toList = some r ∧
      r.Name = "First".toList ∧ r.LastName = "Last".toList := by
  decide

/-- C2 (amended): the line `ชื่อตัวและชื่อสกุล Mr First Last` splits into four
tokens, so `parseOCRDescription` returns empty `Name` and `LastName`; with one
more token before the names (five tokens) it returns `Name = "First"` and
`LastName = "Last"`. -/
theorem C2_name_line_needs_five_tokens :
    (splitOn ' ' "ชื่อตัวและชื่อสกุล Mr First Last".toList).length = 4 ∧
    parseOCRDescription "ชื่อตัวและชื่อสกุล Mr First Last".toList = some {} ∧
    (splitOn ' ' "ชื่อตัวและชื่อสกุล นาย Mr First Last".toList).length = 5 ∧
    parseOCRDescription "ชื่อตัวและชื่อสกุล นาย Mr First Last".toList =
      some { Name := "First".toList, LastName := "Last".toList } := by
  decide

/-- C3 (as stated, refuted): a Card Record that satisfies every condition of the
claim, whose synthetic OCR text is not parsed back to it: the name line has
three tokens, so `Name` and `LastName` come back empty, and `Address` comes
back as the address line joined with the issue-date line. -/
theorem C3_counterexample :
    roundTripInput
        { IDCardNumber := "1234567890123".toList, Name := "Somchai".toList,
          LastName := "Jaidee".toList, DateOfBirth := "5 January 1990".toList,
          Address := "99 Moo 1".toList, DateOfIssue := "1 Feb 2020".toList,
          DateOfExpiry := "4 Jan 2029".toList } = true ∧
    parseOCRDescription (syntheticText
        { IDCardNumber := "1234567890123".toList, Name := "Somchai".toList,
          LastName := "Jaidee".toList, DateOfBirth := "5 January 1990".toList,
          Address := "99 Moo 1".toList, DateOfIssue := "1 Feb 2020".toList,
          DateOfExpiry := "4 Jan 2029".toList }) =
      some { IDCardNumber := "1234567890123".toList, Name := [], LastName := [],
             DateOfBirth := "5 January 1990".toList,
             Address := "ที่อยู่ 99 Moo 1 วันออกบัตร 1 Feb 2020".toList,
             DateOfIssue := "1 Feb 2020".toList, DateOfExpiry := "4 Jan 2029".toList } ∧
    parseOCRDescription (syntheticText
        { IDCardNumber := "1234567890123".toList, Name := "Somchai".toList,
          LastName := "Jaidee".toList, DateOfBirth := "5 January 1990".toList,
          Address := "99 Moo 1".toList, DateOfIssue := "1 Feb 2020".toList,
          DateOfExpiry := "4 Jan 2029".toList }) ≠
      some { IDCardNumber := "1234567890123".toList, Name := "Somchai".toList,
             LastName := "Jaidee".toList, DateOfBirth := "5 January 1990".toList,
             Address := "99 Moo 1".toList, DateOfIssue := "1 Feb 2020".toList,
             DateOfExpiry := "4 Jan 2029".toList } := by
  decide

/-- C3 (amended): for every Card Record as in the claim whose name line contains
no ID label and not the address label, whose address line contains no ID, name
or birth-date label and whose dates do not contain `Name`, the synthetic OCR
text is parsed to a record with the original ID number and the three original
dates, with `Name` and `LastName` empty (the name line has three tokens), and
with `Address` equal to the address line, one space, the issue-date line. -/
theorem C3_round_trip_amended (r : ParsedData) (hwf : roundTripInput r = true)
    (hname : hasIDLabel (nameLine r) = false ∧ contains (nameLine r) addressLabel = false)
    (haddr : hasIDLabel (addressLine r) = false ∧ hasNameLabel (addressLine r) = false ∧
      hasBirthLabel (addressLine r) = false)
    (hdates : contains r.DateOfBirth nameLabelEn = false ∧
      contains r.DateOfIssue nameLabelEn = false ∧
      contains r.DateOfExpiry nameLabelEn = false) :
    parseOCRDescription (syntheticText r) =
      some { IDCardNumber := r.IDCardNumber, Name := [], LastName := [],
             DateOfBirth := r.DateOfBirth, Address := addressLine r ++ ' ' :: issueLine r,
             DateOfIssue := r.DateOfIssue, DateOfExpiry := r.DateOfExpiry } := by
  obtain ⟨ids, name, last, dob, addr, doi, doe⟩ := r
  simp only [roundTripInput, Bool.and_eq_true, beq_iff_eq, List.all_eq_true,
    Bool.not_eq_true', List.isEmpty_eq_false, List.any_eq_false] at hwf
  obtain ⟨⟨⟨⟨⟨⟨⟨⟨⟨⟨w1, w2⟩, _⟩, w4⟩, w5⟩, w6⟩, w7⟩, w8⟩, w9⟩, _⟩, w11⟩ := hwf
  simp only [nameLine, addressLine] at hname haddr
  simp only at hdates
  obtain ⟨bd, bw, bY, rfl, hb⟩ := isDateString_spec dob w7
  obtain ⟨sd, sw, sY, rfl, hs⟩ := isDateString_spec doi w8
  obtain ⟨ed, ew, eY, rfl, he⟩ := isDateString_spec doe w9
  have hn : ∀ c ∈ name, isSpace c = false := fun c hc => by simpa using w4 c hc
  have hl : ∀ c ∈ last, isSpace c = false := fun c hc => by simpa using w6 c hc
  have nb := contains_false_of_sub _ _ _ (word_infix_dateText bd bw bY) hdates.1
  have ns := contains_false_of_sub _ _ _ (word_infix_dateText sd sw sY) hdates.2.1
  have ne := contains_false_of_sub _ _ _ (word_infix_dateText ed ew eY) hdates.2.2
  -- the six lines
  obtain ⟨t0, n0⟩ := idLine_shape idLabelTh ids w1 w2 (by decide) (by decide) (by decide)
  obtain ⟨t1, n1, x1⟩ := nameLine_shape name last hn hl w5
  obtain ⟨t2, n2⟩ := dateLine_shape birthLabelTh bd bw bY hb (by decide) (by decide) (by decide)
  obtain ⟨t4, n4⟩ := dateLine_shape issueLabelTh sd sw sY hs (by decide) (by decide) (by decide)
  obtain ⟨t5, n5⟩ := dateLine_shape expiryLabelTh ed ew eY he (by decide) (by decide) (by decide)
  have n3 : '\n' ∉ addressLabel ++ ' ' :: addr := by
    simp only [List.mem_append, List.mem_cons, not_or]
    exact ⟨by decide, by decide, fun hm => by simpa using w11 _ hm⟩
  have hsplit : splitOn '\n' (syntheticText ⟨ids, name, last, dateText bd bw bY, addr,
      dateText sd sw sY, dateText ed ew eY⟩) =
      [idLabelTh ++ ' ' :: groupID ids, nameLabelTh ++ ' ' :: (name ++ ' ' :: last),
       birthLabelTh ++ ' ' :: dateText bd bw bY, addressLabel ++ ' ' :: addr,
       issueLabelTh ++ ' ' :: dateText sd sw sY, expiryLabelTh ++ ' ' :: dateText ed ew eY] := by
    simp only [syntheticText, idLine, nameLine, birthLine, addressLine, issueLine, expiryLine]
    rw [splitOn_append_sep '\n' _ _ n0, splitOn_append_sep '\n' _ _ n1,
      splitOn_append_sep '\n' _ _ n2, splitOn_append_sep '\n' _ _ n3,
      splitOn_append_sep '\n' _ _ n4, splitOn_of_not_mem '\n' _ n5]
  -- the branch of each line
  have r0 : ruleOf (idLabelTh ++ ' ' :: groupID ids) = Rule.id := by
    rw [ruleOf_eq_id_iff]; simp [hasIDLabel, contains_self_append]
  have r1 : ruleOf (nameLabelTh ++ ' ' :: (name ++ ' ' :: last)) = Rule.name := by
    rw [ruleOf_eq_name_iff]; exact ⟨hname.1, by simp [hasNameLabel, contains_self_append]⟩
  have r2 := (ruleOf_birth_line bd bw bY hb nb).1
  have r3 : ruleOf (addressLabel ++ ' ' :: addr) = Rule.address := by
    rw [ruleOf_eq_address_iff]
    exact ⟨haddr.1, haddr.2.1, haddr.2.2, by simp [hasAddressLabel, contains_self_append]⟩
  have r4 := (ruleOf_issue_line sd sw sY hs ns).1
  have r5 := (ruleOf_expiry_line ed ew eY he ne).1
  -- the extracted values
  have e0 : extractIDCardNumber (idLabelTh ++ ' ' :: groupID ids) = ids := by
    have e : idLabelTh ++ ' ' :: groupID ids = (idLabelTh ++ [' ']) ++ groupID ids := by simp
    rw [e, extractIDCardNumber_after _ _ (by decide) (groupID_spec ids w1 w2).1,
      (groupID_spec ids w1 w2).2.1]
  have hdate : ∀ (L ds w ys : GoString), (∀ c ∈ L ++ [' '], isDigit c = false) →
      wellFormedDate ds w ys = true →
      extractDate (L ++ ' ' :: dateText ds w ys) = dateText ds w ys := by
    intro L ds w ys hL hw
    have e : L ++ ' ' :: dateText ds w ys = (L ++ [' ']) ++ dateText ds w ys := by simp
    rw [e, extractDate_after _ _ _ _ hL hw]
  have e2 := hdate birthLabelTh bd bw bY (by decide) hb
  have e4 := hdate issueLabelTh sd sw sY (by decide) hs
  have e5 := hdate expiryLabelTh ed ew eY (by decide) he
  have ea : extractAddress
      [idLabelTh ++ ' ' :: groupID ids, nameLabelTh ++ ' ' :: (name ++ ' ' :: last),
       birthLabelTh ++ ' ' :: dateText bd bw bY, addressLabel ++ ' ' :: addr,
       issueLabelTh ++ ' ' :: dateText sd sw sY, expiryLabelTh ++ ' ' :: dateText ed ew eY] =
      some ((addressLabel ++ ' ' :: addr) ++ ' ' :: (issueLabelTh ++ ' ' :: dateText sd sw sY)) := by
    apply extractAddress_eq _ 3 _ _ rfl rfl (contains_self_append _ _)
    intro j l hj hl
    have hj3 : j = 0 ∨ j = 1 ∨ j = 2 := by omega
    rcases hj3 with rfl | rfl | rfl <;>
      simp only [List.getElem?_cons_zero, List.getElem?_cons_succ, Option.some.injEq] at hl <;>
      subst hl
    · exact idLine_free_char _ _ _ w2 (by decide)
    · exact hname.2
    · exact dateLine_free_char _ _ _ _ _ hb (by decide)
  unfold parseOCRDescription
  rw [hsplit]
  simp only [parseLoop, parseLine_eq, t0, t1, t2, t4, t5, ruleOf_trimSpace, r0, r1, r2, r3, r4,
    r5, e0, x1, e2, e4, e5, ea, Option.map_some', addressLine, issueLine]

/-- C3 (amended), witness. -/
theorem C3_round_trip_amended_witness :
    parseOCRDescription (syntheticText
        { IDCardNumber := "1234567890123".toList, Name := "Somchai".toList,
          LastName := "Jaidee".toList, DateOfBirth := "5 January 1990".toList,
          Address := "99 Moo 1".toList, DateOfIssue := "1 Feb 2020".toList,
          DateOfExpiry := "4 Jan 2029".toList }) =
      some { IDCardNumber := "1234567890123".toList, Name := [], LastName := [],
             DateOfBirth := "5 January 1990".toList,
             Address := "ที่อยู่ 99 Moo 1".toList ++ ' ' :: "วันออกบัตร 1 Feb 2020".toList,
             DateOfIssue := "1 Feb 2020".toList, DateOfExpiry := "4 Jan 2029".toList } :=
  C3_round_trip_amended
    { IDCardNumber := "1234567890123".toList, Name := "Somchai".toList,
      LastName := "Jaidee".toList, DateOfBirth := "5 January 1990".toList,
      Address := "99 Moo 1".toList, DateOfIssue := "1 Feb 2020".toList,
      DateOfExpiry := "4 Jan 2029".toList }
    (by decide) ⟨by decide, by decide⟩ ⟨by decide, by decide, by decide⟩
    ⟨by decide, by decide, by decide⟩

/-- A label absent from the whole text is absent from every trimmed line, so no
line takes the branch of that label. -/
theorem no_rule_of_absent (s : GoString) :
    (hasIDLabel s = false → ∀ l ∈ splitOn '\n' s, ruleOf (trimSpace l) ≠ Rule.id) ∧
    (hasNameLabel s = false → ∀ l ∈ splitOn '\n' s, ruleOf (trimSpace l) ≠ Rule.name) ∧
    (hasBirthLabel s = false → ∀ l ∈ splitOn '\n' s, ruleOf (trimSpace l) ≠ Rule.birth) ∧
    (hasAddressLabel s = false → ∀ l ∈ splitOn '\n' s, ruleOf (trimSpace l) ≠ Rule.address) ∧
    (hasIssueLabel s = false → ∀ l ∈ splitOn '\n' s, ruleOf (trimSpace l) ≠ Rule.issue) ∧
    (hasExpiryLabel s = false → ∀ l ∈ splitOn '\n' s, ruleOf (trimSpace l) ≠ Rule.expiry) := by
  refine ⟨?_, ?_, ?_, ?_, ?_, ?_⟩ <;> intro h l hl hr
  · have := hasIDLabel_false_of_sub _ _ (trimmed_line_sub s l hl) h
    rw [ruleOf_eq_id_iff, this] at hr; cases hr
  · have := hasNameLabel_false_of_sub _ _ (trimmed_line_sub s l hl) h
    rw [ruleOf_eq_name_iff, this] at hr; cases hr.2
  · have := hasBirthLabel_false_of_sub _ _ (trimmed_line_sub s l hl) h
    rw [ruleOf_eq_birth_iff, this] at hr; cases hr.2.2
  · have := hasAddressLabel_false_of_sub _ _ (trimmed_line_sub s l hl) h
    rw [ruleOf_eq_address_iff, this] at hr; cases hr.2.2.2
  · have := hasIssueLabel_false_of_sub _ _ (trimmed_line_sub s l hl) h
    rw [ruleOf_eq_issue_iff, this] at hr; cases hr.2.2.2.2
  · have := hasExpiryLabel_false_of_sub _ _ (trimmed_line_sub s l hl) h
    rw [ruleOf_eq_expiry_iff, this] at hr; cases hr.2.2.2.2.2

/-- C4: whenever `parseOCRDescription` returns a record, a field none of whose
labels occurs in the input is empty; and on an input that contains none of the
label strings it does return a record, with all seven fields empty. -/
theorem C4_unmatched_fields_stay_empty (s : GoString) :
    (∀ r, parseOCRDescription s = some r →
      ((contains s idLabelTh = false ∧ contains s idLabelEn = false) → r.IDCardNumber = []) ∧
      ((contains s nameLabelTh = false ∧ contains s nameLabelEn = false) →
        r.Name = [] ∧ r.LastName = []) ∧
      ((contains s birthLabelTh = false ∧ contains s birthLabelEn = false) →
        r.DateOfBirth = []) ∧
      (contains s addressLabel = false → r.Address = []) ∧
      ((contains s issueLabelTh = false ∧ contains s issueLabelEn = false) →
        r.DateOfIssue = []) ∧
      ((contains s expiryLabelTh = false ∧ contains s expiryLabelEn = false) →
        r.DateOfExpiry = [])) ∧
    ((contains s idLabelTh = false ∧ contains s idLabelEn = false ∧
      contains s nameLabelTh = false ∧ contains s nameLabelEn = false ∧
      contains s birthLabelTh = false ∧ contains s birthLabelEn = false ∧
      contains s addressLabel = false ∧
      contains s issueLabelTh = false ∧ contains s issueLabelEn = false ∧
      contains s expiryLabelTh = false ∧ contains s expiryLabelEn = false) →
      parseOCRDescription s =
        some { IDCardNumber := [], Name := [], LastName := [], DateOfBirth := [],
               Address := [], DateOfIssue := [], DateOfExpiry := [] }) := by
  obtain ⟨n1, n2, n3, n4, n5, n6⟩ := no_rule_of_absent s
  have key : ∀ r, parseOCRDescription s = some r →
      ((contains s idLabelTh = false ∧ contains s idLabelEn = false) → r.IDCardNumber = []) ∧
      ((contains s nameLabelTh = false ∧ contains s nameLabelEn = false) →
        r.Name = [] ∧ r.LastName = []) ∧
      ((contains s birthLabelTh = false ∧ contains s birthLabelEn = false) →
        r.DateOfBirth = []) ∧
      (contains s addressLabel = false → r.Address = []) ∧
      ((contains s issueLabelTh = false ∧ contains s issueLabelEn = false) →
        r.DateOfIssue = []) ∧
      ((contains s expiryLabelTh = false ∧ contains s expiryLabelEn = false) →
        r.DateOfExpiry = []) := by
    intro r hr
    obtain ⟨f1, f2, f3, f4, f5, f6⟩ := parseLoop_frame _ _ _ _ hr
    refine ⟨fun h => f1 (n1 ?_), fun h => f2 (n2 ?_), fun h => f3 (n3 ?_), fun h => f4 (n4 h),
      fun h => f5 (n5 ?_), fun h => f6 (n6 ?_)⟩
    · simp [hasIDLabel, h.1, h.2]
    · simp [hasNameLabel, h.1, h.2]
    · simp [hasBirthLabel, h.1, h.2]
    · simp [hasIssueLabel, h.1, h.2]
    · simp [hasExpiryLabel, h.1, h.2]
  refine ⟨key, ?_⟩
  rintro ⟨a1, a2, b1, b2, c1, c2, d, e1, e2, g1, g2⟩
  obtain ⟨r, hr⟩ := parseLoop_isSome_of_no_address (splitOn '\n' s) (splitOn '\n' s) {} (n4 d)
  have hr2 : parseOCRDescription s = some r := hr
  obtain ⟨k1, k2, k3, k4, k5, k6⟩ := key r hr2
  rw [hr2]
  obtain ⟨i, n, ln, b, a, di, de⟩ := r
  have q1 := k1 ⟨a1, a2⟩
  have q2 := k2 ⟨b1, b2⟩
  have q3 := k3 ⟨c1, c2⟩
  have q4 := k4 d
  have q5 := k5 ⟨e1, e2⟩
  have q6 := k6 ⟨g1, g2⟩
  simp only at q1 q2 q3 q4 q5 q6
  obtain ⟨q2a, q2b⟩ := q2
  subst q1 q2a q2b q3 q4 q5 q6
  rfl

/-- C4, witness: a text with only a birth-date line has an empty ID number and
an empty address, and a text without any label gives the empty record. -/
theorem C4_unmatched_fields_stay_empty_witness :
    (parseOCRDescription "เกิดวันที่ 5 January 1990".toList =
        some { DateOfBirth := "5 January 1990".toList } ∧
      contains "เกิดวันที่ 5 January 1990".toList idLabelTh = false ∧
      contains "เกิดวันที่ 5 January 1990".toList idLabelEn = false ∧
      contains "เกิดวันที่ 5 January 1990".toList addressLabel = false ∧
      ({ DateOfBirth := "5 January 1990".toList } : ParsedData).IDCardNumber = [] ∧
      ({ DateOfBirth := "5 January 1990".toList } : ParsedData).Address = []) ∧
    parseOCRDescription "hello\nworld 1 2345 67890 12 3".toList = some {} :=
  ⟨⟨by decide, by decide, by decide, by decide,
    ((C4_unmatched_fields_stay_empty "เกิดวันที่ 5 January 1990".toList).1
      { DateOfBirth := "5 January 1990".toList } (by decide)).1 ⟨by decide, by decide⟩,
    ((C4_unmatched_fields_stay_empty "เกิดวันที่ 5 January 1990".toList).1
      { DateOfBirth := "5 January 1990".toList } (by decide)).2.2.2.1 (by decide)⟩,
   (C4_unmatched_fields_stay_empty "hello\nworld 1 2345 67890 12 3".toList).2 (by decide)⟩

/-- C5: for every sequence `ds` of 13 ASCII digits, the one-line input made of
an ID label (Thai or English), one space and the digits grouped 1-4-5-2-1
yields `IDCardNumber = ds` and every other field empty. -/
theorem C5_id_line_yields_digits (ds : GoString) (hlen : ds.length = 13)
    (hd : ∀ c ∈ ds, isDigit c = true) :
    parseOCRDescription (idLabelTh ++ ' ' :: groupID ds) =
      some { IDCardNumber := ds, Name := [], LastName := [], DateOfBirth := [], Address := [],
             DateOfIssue := [], DateOfExpiry := [] } ∧
    parseOCRDescription (idLabelEn ++ ' ' :: groupID ds) =
      some { IDCardNumber := ds, Name := [], LastName := [], DateOfBirth := [], Address := [],
             DateOfIssue := [], DateOfExpiry := [] } := by
  obtain ⟨hshape, hrem, hnl, _, hlast⟩ := groupID_spec ds hlen hd
  have key : ∀ L : GoString, L ≠ [] → '\n' ∉ L → (∀ c, L.head? = some c → isSpace c = false) →
      (∀ c ∈ L ++ [' '], isDigit c = false) → hasIDLabel (L ++ ' ' :: groupID ds) = true →
      parseOCRDescription (L ++ ' ' :: groupID ds) = some { IDCardNumber := ds } := by
    intro L hne hLnl hhead hnodigit hlabel
    have hline : '\n' ∉ L ++ ' ' :: groupID ds := by
      simp only [List.mem_append, List.mem_cons, not_or]
      exact ⟨hLnl, by decide, hnl⟩
    have htrim : trimSpace (L ++ ' ' :: groupID ds) = L ++ ' ' :: groupID ds := by
      apply trimSpace_eq_self
      · intro c hc
        rw [head?_append_of_ne _ _ hne] at hc
        exact hhead c hc
      · intro c hc
        have hg : groupID ds ≠ [] := by
          intro e; rw [e] at hshape; simp [hasShape, idShape] at hshape
        rw [getLast?_append_cons_ne _ _ _ hg] at hc
        exact hlast c hc
    rw [parse_single_line _ hline, parseLine_eq, htrim, (ruleOf_eq_id_iff _).2 hlabel]
    have e : L ++ ' ' :: groupID ds = (L ++ [' ']) ++ groupID ds := by simp
    rw [e, extractIDCardNumber_after _ _ hnodigit hshape, hrem]
  constructor
  · apply key idLabelTh (by decide) (by decide) (by decide) (by decide)
    simp [hasIDLabel, contains_self_append]
  · apply key idLabelEn (by decide) (by decide) (by decide) (by decide)
    simp [hasIDLabel, contains_self_append]

/-- C5, witness: the digits `1 2345 67890 12 3` after the Thai and the English
label. -/
theorem C5_id_line_yields_digits_witness :
    parseOCRDescription "เลขประจำตัวประชาชน 1 2345 67890 12 3".toList =
      some { IDCardNumber := "1234567890123".toList } ∧
    parseOCRDescription "Identification Number 1 2345 67890 12 3".toList =
      some { IDCardNumber := "1234567890123".toList } :=
  C5_id_line_yields_digits "1234567890123".toList (by decide) (by decide)

/-- C6: for every date `D` made of 1 or 2 digits, one space, a non-empty word of
characters of `\w` that does not contain `Name`, one space and 4 digits, and
for each of the six date labels, the one-line input label, space, `D` yields
the date field of that label equal to `D` and the six other fields empty. -/
theorem C6_date_line_yields_date (ds w ys : GoString) (hwf : wellFormedDate ds w ys = true)
    (hname : contains w nameLabelEn = false) :
    parseOCRDescription (birthLabelTh ++ ' ' :: dateText ds w ys) =
      some { IDCardNumber := [], Name := [], LastName := [], DateOfBirth := dateText ds w ys,
             Address := [], DateOfIssue := [], DateOfExpiry := [] } ∧
    parseOCRDescription (birthLabelEn ++ ' ' :: dateText ds w ys) =
      some { IDCardNumber := [], Name := [], LastName := [], DateOfBirth := dateText ds w ys,
             Address := [], DateOfIssue := [], DateOfExpiry := [] } ∧
    parseOCRDescription (issueLabelTh ++ ' ' :: dateText ds w ys) =
      some { IDCardNumber := [], Name := [], LastName := [], DateOfBirth := [],
             Address := [], DateOfIssue := dateText ds w ys, DateOfExpiry := [] } ∧
    parseOCRDescription (issueLabelEn ++ ' ' :: dateText ds w ys) =
      some { IDCardNumber := [], Name := [], LastName := [], DateOfBirth := [],
             Address := [], DateOfIssue := dateText ds w ys, DateOfExpiry := [] } ∧
    parseOCRDescription (expiryLabelTh ++ ' ' :: dateText ds w ys) =
      some { IDCardNumber := [], Name := [], LastName := [], DateOfBirth := [],
             Address := [], DateOfIssue := [], DateOfExpiry := dateText ds w ys } ∧
    parseOCRDescription (expiryLabelEn ++ ' ' :: dateText ds w ys) =
      some { IDCardNumber := [], Name := [], LastName := [], DateOfBirth := [],
             Address := [], DateOfIssue := [], DateOfExpiry := dateText ds w ys } := by
  have hdate : ∀ L : GoString, (∀ c ∈ L ++ [' '], isDigit c = false) →
      extractDate (L ++ ' ' :: dateText ds w ys) = dateText ds w ys := by
    intro L hL
    have e : L ++ ' ' :: dateText ds w ys = (L ++ [' ']) ++ dateText ds w ys := by simp
    rw [e, extractDate_after _ _ _ _ hL hwf]
  obtain ⟨b1, b2⟩ := ruleOf_birth_line ds w ys hwf hname
  obtain ⟨i1, i2⟩ := ruleOf_issue_line ds w ys hwf hname
  obtain ⟨e1, e2⟩ := ruleOf_expiry_line ds w ys hwf hname
  refine ⟨?_, ?_, ?_, ?_, ?_, ?_⟩
  · obtain ⟨ht, hn⟩ := dateLine_shape birthLabelTh ds w ys hwf (by decide) (by decide) (by decide)
    rw [parse_single_line _ hn, parseLine_eq, ht, b1, hdate _ (by decide)]
  · obtain ⟨ht, hn⟩ := dateLine_shape birthLabelEn ds w ys hwf (by decide) (by decide) (by decide)
    rw [parse_single_line _ hn, parseLine_eq, ht, b2, hdate _ (by decide)]
  · obtain ⟨ht, hn⟩ := dateLine_shape issueLabelTh ds w ys hwf (by decide) (by decide) (by decide)
    rw [parse_single_line _ hn, parseLine_eq, ht, i1, hdate _ (by decide)]
  · obtain ⟨ht, hn⟩ := dateLine_shape issueLabelEn ds w ys hwf (by decide) (by decide) (by decide)
    rw [parse_single_line _ hn, parseLine_eq, ht, i2, hdate _ (by decide)]
  · obtain ⟨ht, hn⟩ :=
      dateLine_shape expiryLabelTh ds w ys hwf (by decide) (by decide) (by decide)
    rw [parse_single_line _ hn, parseLine_eq, ht, e1, hdate _ (by decide)]
  · obtain ⟨ht, hn⟩ :=
      dateLine_shape expiryLabelEn ds w ys hwf (by decide) (by decide) (by decide)
    rw [parse_single_line _ hn, parseLine_eq, ht, e2, hdate _ (by decide)]

/-- C6, witness: the date `5 January 1990` after each of the six labels; in
particular `เกิดวันที่ 5 January 1990` gives `DateOfBirth = "5 January 1990"`. -/
theorem C6_date_line_yields_date_witness :
    parseOCRDescription "เกิดวันที่ 5 January 1990".toList =
      some { DateOfBirth := "5 January 1990".toList } ∧
    parseOCRDescription "Date of Birth 5 January 1990".toList =
      some { DateOfBirth := "5 January 1990".toList } ∧
    parseOCRDescription "วันออกบัตร 5 January 1990".toList =
      some { DateOfIssue := "5 January 1990".toList } ∧
    parseOCRDescription "Date of issue 5 January 1990".toList =
      some { DateOfIssue := "5 January 1990".toList } ∧
    parseOCRDescription "วันบัตรหมดอายุ 5 January 1990".toList =
      some { DateOfExpiry := "5 January 1990".toList } ∧
    parseOCRDescription "Date of Expiry 5 January 1990".toList =
      some { DateOfExpiry := "5 January 1990".toList } :=
  C6_date_line_yields_date "5".toList "January".toList "1990".toList (by decide) (by decide)

/-- C7: let the lines be the input split on newlines (untrimmed). If some line
contains the address label and none of the ID, name and birth-date labels, if
`a` is the first line (index `N`) that contains the address label and `b` is
the line after it, then `parseOCRDescription` returns a record whose `Address`
is `a`, one space, `b`: the raw lines, whatever follows and whichever line
took the address branch. -/
theorem C7_address_first_occurrence (s : GoString) (N : Nat) (a b : GoString)
    (hfire : ∃ l ∈ splitOn '\n' s, contains l addressLabel = true ∧
      contains l idLabelTh = false ∧ contains l idLabelEn = false ∧
      contains l nameLabelTh = false ∧ contains l nameLabelEn = false ∧
      contains l birthLabelTh = false ∧ contains l birthLabelEn = false)
    (ha : (splitOn '\n' s)[N]? = some a) (hb : (splitOn '\n' s)[N + 1]? = some b)
    (hlabel : contains a addressLabel = true)
    (hfirst : ∀ j l, j < N → (splitOn '\n' s)[j]? = some l → contains l addressLabel = false) :
    ∃ r, parseOCRDescription s = some r ∧ r.Address = a ++ ' ' :: b := by
  have hext := extractAddress_eq (splitOn '\n' s) N a b ha hb hlabel hfirst
  obtain ⟨r, hr⟩ := parseLoop_isSome (splitOn '\n' s) (splitOn '\n' s) {} _ hext
  refine ⟨r, hr, ?_⟩
  obtain ⟨l, hl, h1, h2, h3, h4, h5, h6, h7⟩ := hfire
  have hrule : ruleOf (trimSpace l) = Rule.address := by
    rw [ruleOf_trimSpace, ruleOf_eq_address_iff]
    simp [hasIDLabel, hasNameLabel, hasBirthLabel, hasAddressLabel, h1, h2, h3, h4, h5, h6, h7]
  have := parseLoop_address _ _ _ _ hr (Or.inr ⟨l, hl, hrule⟩)
  rw [hext] at this
  simp only [Option.some.injEq] at this
  exact this.symm

/-- C7, witness: the label occurs on lines 1 and 3 (and, together with a name
label, on line 4); the address is made of the raw lines 1 and 2. -/
theorem C7_address_first_occurrence_witness :
    ∃ r, parseOCRDescription "x\n ที่อยู่ 99 Moo 1\n line2 \nที่อยู่ zz\nName ที่อยู่".toList = some r ∧
      r.Address = " ที่อยู่ 99 Moo 1".toList ++ ' ' :: " line2 ".toList :=
  C7_address_first_occurrence "x\n ที่อยู่ 99 Moo 1\n line2 \nที่อยู่ zz\nName ที่อยู่".toList 1
    " ที่อยู่ 99 Moo 1".toList " line2 ".toList
    ⟨"ที่อยู่ zz".toList, by decide, by decide, by decide, by decide, by decide, by decide,
      by decide, by decide⟩
    (by decide) (by decide) (by decide)
    (fun j l hj hl => by
      have : j = 0 := by omega
      subst this
      revert hl
      have e : (splitOn '\n' "x\n ที่อยู่ 99 Moo 1\n line2 \nที่อยู่ zz\nName ที่อยู่".toList)[0]? =
          some "x".toList := by decide
      rw [e]
      intro hl
      simp only [Option.some.injEq] at hl
      subst hl
      decide)

/-- C8: on a single-line input whose trimmed line contains a name label and no
ID label, with `T` the trimmed line split on every space character,
`parseOCRDescription` returns a record with `Name = T[3]` and `LastName = T[4]`
when `T` has at least five tokens, and with both empty when it has fewer; the
other five fields are empty. -/
theorem C8_fixed_position_name_rule (s : GoString) (hline : '\n' ∉ s)
    (hname : contains (trimSpace s) nameLabelTh = true ∨
      contains (trimSpace s) nameLabelEn = true)
    (hid : contains (trimSpace s) idLabelTh = false ∧ contains (trimSpace s) idLabelEn = false) :
    ∃ r, parseOCRDescription s = some r ∧
      (5 ≤ (splitOn ' ' (trimSpace s)).length →
        (splitOn ' ' (trimSpace s))[3]? = some r.Name ∧
        (splitOn ' ' (trimSpace s))[4]? = some r.LastName) ∧
      ((splitOn ' ' (trimSpace s)).length < 5 → r.Name = [] ∧ r.LastName = []) ∧
      r.IDCardNumber = [] ∧ r.DateOfBirth = [] ∧ r.Address = [] ∧ r.DateOfIssue = [] ∧
      r.DateOfExpiry = [] := by
  have hrule : ruleOf (trimSpace s) = Rule.name := by
    rw [ruleOf_eq_name_iff]
    constructor
    · simp [hasIDLabel, hid.1, hid.2]
    · rcases hname with h | h <;> simp [hasNameLabel, h]
  have hparse : parseOCRDescription s =
      some { Name := (extractName (trimSpace s)).1, LastName := (extractName (trimSpace s)).2 } := by
    unfold parseOCRDescription
    simp only [splitOn_of_not_mem '\n' s hline, parseLoop, parseLine_eq, hrule]
  refine ⟨_, hparse, ?_, ?_, rfl, rfl, rfl, rfl, rfl⟩
  · intro h5
    simp only [extractName, dif_pos h5]
    constructor
    · exact List.getElem?_eq_getElem _
    · exact List.getElem?_eq_getElem _
  · intro h5
    have : ¬ 5 ≤ (splitOn ' ' (trimSpace s)).length := by omega
    simp only [extractName, dif_neg this, and_self]

/-- C8, witness: a six-token name line (the sixth token is ignored) and a
two-token name line. -/
theorem C8_fixed_position_name_rule_witness :
    ∃ r, parseOCRDescription "  Name Mr. x  Last more ".toList = some r ∧
      (5 ≤ (splitOn ' ' (trimSpace "  Name Mr. x  Last more ".toList)).length →
        (splitOn ' ' (trimSpace "  Name Mr. x  Last more ".toList))[3]? = some r.Name ∧
        (splitOn ' ' (trimSpace "  Name Mr. x  Last more ".toList))[4]? = some r.LastName) ∧
      ((splitOn ' ' (trimSpace "  Name Mr. x  Last more ".toList)).length < 5 →
        r.Name = [] ∧ r.LastName = []) ∧
      r.IDCardNumber = [] ∧ r.DateOfBirth = [] ∧ r.Address = [] ∧ r.DateOfIssue = [] ∧
      r.DateOfExpiry = [] :=
  C8_fixed_position_name_rule "  Name Mr. x  Last more ".toList (by decide)
    (Or.inr (by decide)) ⟨by decide, by decide⟩

/-- Every value of `extractIDCardNumber` is empty or made of 13 digits. -/
theorem extractIDCardNumber_normalized (line : GoString) :
    extractIDCardNumber line = [] ∨
      ((extractIDCardNumber line).length = 13 ∧
        ∀ c ∈ extractIDCardNumber line, isDigit c = true) := by
  unfold extractIDCardNumber findString
  cases h : findMatch idPattern line with
  | none => left; rfl
  | some m0 =>
    right
    obtain ⟨pre, rest, n, _, hn, hm, _⟩ := findMatch_some _ _ _ h
    obtain ⟨rfl, m, t, rfl, hsh⟩ := (matchSeq_idPattern rest n).1 hn
    have hlen : m.length = 17 := hasShape_length _ _ hsh
    have : m0 = m := by rw [hm, ← hlen, List.take_left']; rfl
    subst this
    exact removeSpaces_idShape m0 hsh

/-- The ID number of every intermediate record is a value of
`extractIDCardNumber` or the initial one. -/
theorem parseLoop_id_inv (P : GoString → Prop) (hP : ∀ line, P (extractIDCardNumber line))
    (lines rest : List GoString) (p r : ParsedData) (h : parseLoop lines rest p = some r)
    (hp : P p.IDCardNumber) : P r.IDCardNumber := by
  induction rest generalizing p with
  | nil =>
    simp only [parseLoop, Option.some.injEq] at h
    subst h; exact hp
  | cons x rest ih =>
    simp only [parseLoop, parseLine_eq] at h
    cases hrule : ruleOf (trimSpace x) <;> rw [hrule] at h <;> simp only at h
    case address =>
      cases ha : extractAddress lines with
      | none => rw [ha] at h; cases h
      | some a => rw [ha] at h; exact ih _ h hp
    case id => exact ih _ h (hP _)
    all_goals exact ih _ h hp

/-- C9: the `IDCardNumber` of every returned record is empty or consists of
exactly 13 ASCII digits; and on every line `extractIDCardNumber` is empty when
no substring of the line has the shape digit, space, 4 digits, space, 5 digits,
space, 2 digits, space, digit, and otherwise is the leftmost such substring
with its spaces deleted. -/
theorem C9_id_number_normalized :
    (∀ s r, parseOCRDescription s = some r →
      r.IDCardNumber = [] ∨
        (r.IDCardNumber.length = 13 ∧ ∀ c ∈ r.IDCardNumber, isDigit c = true)) ∧
    (∀ line,
      (extractIDCardNumber line = [] ∧
        ∀ pre m post, line = pre ++ m ++ post → hasShape idShape m = false) ∨
      ∃ pre m post, line = pre ++ m ++ post ∧ hasShape idShape m = true ∧
        (∀ pre2 m2 post2, line = pre2 ++ m2 ++ post2 → hasShape idShape m2 = true →
          pre.length ≤ pre2.length) ∧
        extractIDCardNumber line = removeSpaces m) := by
  constructor
  · intro s r hr
    exact parseLoop_id_inv
      (fun v => v = [] ∨ (v.length = 13 ∧ ∀ c ∈ v, isDigit c = true))
      extractIDCardNumber_normalized _ _ _ _ hr (Or.inl rfl)
  · intro line
    cases h : findMatch idPattern line with
    | none =>
      left
      refine ⟨by simp [extractIDCardNumber, findString, h, removeSpaces], ?_⟩
      intro pre m post hline
      have := findMatch_none _ _ h pre (m ++ post) (by rw [hline, List.append_assoc])
      exact (matchSeq_idPattern_none _).1 this m post rfl
    | some m0 =>
      right
      obtain ⟨pre, rest, n, hline, hn, hm, hleft⟩ := findMatch_some _ _ _ h
      obtain ⟨rfl, m, t, rfl, hsh⟩ := (matchSeq_idPattern rest n).1 hn
      have hlen : m.length = 17 := hasShape_length _ _ hsh
      have hm0 : m0 = m := by rw [hm, ← hlen, List.take_left']; rfl
      subst hm0
      refine ⟨pre, m0, t, by rw [hline, List.append_assoc], hsh, ?_, ?_⟩
      · intro pre2 m2 post2 hline2 hsh2
        by_contra hlt
        have hnone := hleft pre2 (m2 ++ post2) (by rw [hline2, List.append_assoc])
          (by omega)
        have := (matchSeq_idPattern_none _).1 hnone m2 post2 rfl
        rw [this] at hsh2; cases hsh2
      · simp [extractIDCardNumber, findString, h]

/-- C9, witness: a line with two digit groups; the leftmost one is extracted. -/
theorem C9_id_number_normalized_witness :
    parseOCRDescription "No. เลขประจำตัวประชาชน 1 2345 67890 12 34 5678 90123 45 6".toList =
      some { IDCardNumber := "1234567890123".toList } ∧
    (({ IDCardNumber := "1234567890123".toList } : ParsedData).IDCardNumber = [] ∨
      (({ IDCardNumber := "1234567890123".toList } : ParsedData).IDCardNumber.length = 13 ∧
        ∀ c ∈ ({ IDCardNumber := "1234567890123".toList } : ParsedData).IDCardNumber,
          isDigit c = true)) :=
  ⟨by decide,
    C9_id_number_normalized.1
      "No. เลขประจำตัวประชาชน 1 2345 67890 12 34 5678 90123 45 6".toList
      { IDCardNumber := "1234567890123".toList } (by decide)⟩

/-- C10: suppose `parseOCRDescription` returns a record and `l` is a line of the
input with the lines `post` after it. If `l` is the last line containing an ID
label, then `IDCardNumber` is `extractIDCardNumber` of the trimmed `l` (so it
is empty when `l` has no digit group). If `l` is the last line taking the name
branch (a name label and no ID label), then `Name` and `LastName` are what
`extractName` gives on the trimmed `l`, both empty when it has fewer than five
tokens. The same holds for the three dates. Only `Address` differs: when some
line takes the address branch, it is made of the first line `a` containing the
address label and of the line `b` after it. -/
theorem C10_last_matching_line_wins (s : GoString) (r : ParsedData) (pre post : List GoString)
    (l : GoString) (hr : parseOCRDescription s = some r)
    (hs : splitOn '\n' s = pre ++ l :: post) :
    (hasIDLabel l = true → (∀ m ∈ post, hasIDLabel m = false) →
      r.IDCardNumber = extractIDCardNumber (trimSpace l)) ∧
    (ruleOf l = Rule.name → (∀ m ∈ post, ruleOf m ≠ Rule.name) →
      r.Name = (extractName (trimSpace l)).1 ∧ r.LastName = (extractName (trimSpace l)).2 ∧
      ((splitOn ' ' (trimSpace l)).length < 5 → r.Name = [] ∧ r.LastName = [])) ∧
    (ruleOf l = Rule.birth → (∀ m ∈ post, ruleOf m ≠ Rule.birth) →
      r.DateOfBirth = extractDate (trimSpace l)) ∧
    (ruleOf l = Rule.issue → (∀ m ∈ post, ruleOf m ≠ Rule.issue) →
      r.DateOfIssue = extractDate (trimSpace l)) ∧
    (ruleOf l = Rule.expiry → (∀ m ∈ post, ruleOf m ≠ Rule.expiry) →
      r.DateOfExpiry = extractDate (trimSpace l)) ∧
    (ruleOf l = Rule.address →
      ∃ N a b, (splitOn '\n' s)[N]? = some a ∧ (splitOn '\n' s)[N + 1]? = some b ∧
        contains a addressLabel = true ∧
        (∀ j m, j < N → (splitOn '\n' s)[j]? = some m → contains m addressLabel = false) ∧
        r.Address = a ++ ' ' :: b) := by
  have hr2 : parseLoop (splitOn '\n' s) (pre ++ l :: post) {} = some r := by
    rw [← hs]; exact hr
  obtain ⟨k1, k2, k3, k4, k5⟩ := parseLoop_last _ _ _ _ _ _ hr2
  refine ⟨?_, ?_, ?_, ?_, ?_, ?_⟩
  · intro h1 h2
    apply k1
    · rw [ruleOf_trimSpace, ruleOf_eq_id_iff]; exact h1
    · intro m hm hrule
      rw [ruleOf_trimSpace, ruleOf_eq_id_iff, h2 m hm] at hrule
      cases hrule
  · intro h1 h2
    have := k2 (by rw [ruleOf_trimSpace]; exact h1)
      (fun m hm => by rw [ruleOf_trimSpace]; exact h2 m hm)
    refine ⟨this.1, this.2, fun h5 => ?_⟩
    have h5n : ¬ 5 ≤ (splitOn ' ' (trimSpace l)).length := by omega
    rw [this.1, this.2]
    simp only [extractName, dif_neg h5n, and_self]
  · intro h1 h2
    exact k3 (by rw [ruleOf_trimSpace]; exact h1)
      (fun m hm => by rw [ruleOf_trimSpace]; exact h2 m hm)
  · intro h1 h2
    exact k4 (by rw [ruleOf_trimSpace]; exact h1)
      (fun m hm => by rw [ruleOf_trimSpace]; exact h2 m hm)
  · intro h1 h2
    exact k5 (by rw [ruleOf_trimSpace]; exact h1)
      (fun m hm => by rw [ruleOf_trimSpace]; exact h2 m hm)
  · intro h1
    have hmem : l ∈ splitOn '\n' s := by rw [hs]; simp
    have hext := parseLoop_address _ _ _ _ hr
      (Or.inr ⟨l, hmem, by rw [ruleOf_trimSpace]; exact h1⟩)
    unfold extractAddress at hext
    cases hsi : startIndex (splitOn '\n' s) with
    | none =>
      rw [startIndex_eq_none_iff] at hsi
      have := hsi l hmem
      rw [ruleOf_eq_address_iff, hasAddressLabel, this] at h1
      cases h1.2.2.2
    | some N =>
      rw [hsi] at hext
      simp only [Option.map_eq_some'] at hext
      obtain ⟨ys, hys, hj⟩ := hext
      obtain ⟨a, b, ha, hb, rfl⟩ := slice_two_some _ _ _ hys
      obtain ⟨a2, ha2, hc, hfirst⟩ := startIndex_some_spec _ _ hsi
      rw [ha] at ha2
      simp only [Option.some.injEq] at ha2
      subst ha2
      refine ⟨N, a, b, ha, hb, hc, hfirst, ?_⟩
      rw [← hj]
      simp [join]

/-- C10, witness: the second ID-label line has no digit group and overwrites the
number extracted from the first one with the empty string. -/
theorem C10_last_matching_line_wins_witness :
    parseOCRDescription "Identification Number 1 2345 67890 12 3\nIdentification Number".toList =
      some { IDCardNumber := [] } ∧
    extractIDCardNumber (trimSpace "Identification Number 1 2345 67890 12 3".toList) =
      "1234567890123".toList ∧
    ({ IDCardNumber := [] } : ParsedData).IDCardNumber =
      extractIDCardNumber (trimSpace "Identification Number".toList) :=
  ⟨by decide, by decide,
    (C10_last_matching_line_wins
      "Identification Number 1 2345 67890 12 3\nIdentification Number".toList
      { IDCardNumber := [] } ["Identification Number 1 2345 67890 12 3".toList] []
      "Identification Number".toList (by decide) (by decide)).1 (by decide)
      (fun m hm => by simp at hm)⟩

end OcrDemo
